import Mathlib

/-!
# Library catalogue engine: a shallow embedding of `Library.cpp`

The C++ class `Library` keeps a singly linked list (`head`), a binary search
tree keyed by title (`root`), a stack of deleted books, a queue of search
requests and a vector (`allBooks`), and rewrites the text file
`library_data.txt` from the vector after mutating calls.

Conventions of the embedding

* a C++ `std::string` is a Lean `String`, one `Char` per C++ `char`; the
  comparison `a < b` of two C++ strings is lexicographic on character codes and
  is written `a.data < b.data`, the lexicographic order of the character lists;
* a C++ `int` is an `Int`; the range `[INT_MIN, INT_MAX]` is stated where a
  conversion depends on it (`stoi`, `operator>>`), and the increment of
  `returnBook`, the one operation that can leave the range, wraps around as the
  compiled 32-bit code does (`wrapInt`);
* the linked list, the stack, the queue and the vector are Lean lists (stack:
  top first; queue: front first);
* the text file is a `List Char` when it exists; `writable` records whether
  opening it for writing succeeds;
* console output is not modelled, except for the final message of an operation,
  which is returned as an `Outcome`.
-/

namespace LibrarySystem

/-! ## Data model -/

/-- The `Book` struct of `Library.h`. -/
structure Book where
  title : String
  author : String
  isbn : String
  category : String
  year : Int
  totalCopies : Int
  availableCopies : Int
  isAvailable : Bool
deriving DecidableEq, Repr

/-- The constructor `Book::Book(t, a, i, c, y, copies)`. -/
def Book.ctor (t a i c : String) (y copies : Int) : Book :=
  { title := t, author := a, isbn := i, category := c, year := y,
    totalCopies := copies, availableCopies := copies, isAvailable := true }

/-- The tree of `TreeNode`s hanging from `root`; `nil` is the null pointer. -/
inductive Tree where
  | nil : Tree
  | node (left : Tree) (book : Book) (right : Tree) : Tree
deriving DecidableEq, Repr

/-- The members of `class Library`, together with the text file it reads and writes. -/
structure Library where
  /-- The linked list starting at `head`. -/
  head : List Book
  /-- The binary search tree starting at `root`. -/
  root : Tree
  /-- The stack `deletedBooks`, top first. -/
  deletedBooks : List Book
  /-- The queue `searchRequests`, front first. -/
  searchRequests : List String
  /-- The vector `allBooks`. -/
  allBooks : List Book
  /-- The contents of `library_data.txt`, or `none` when the file cannot be opened for reading. -/
  disk : Option (List Char)
  /-- Whether `ofstream file("library_data.txt")` opens. -/
  writable : Bool
deriving DecidableEq, Repr

/-- The final console message of an operation. -/
inductive Outcome where
  | borrowed
  | notAvailable
  | returned
  | notFound
  | libraryEmpty
  | deleted
  | noDeletedBooks
  | restored
deriving DecidableEq, Repr

/-- The largest `int`. -/
def INT_MAX : Int := 2147483647

/-- The smallest `int`. -/
def INT_MIN : Int := -2147483648

/-- The `int` that 32-bit two's complement arithmetic gives for the mathematical result `n`:
`n` itself inside `[INT_MIN, INT_MAX]`, and `INT_MIN` for `INT_MAX + 1`. -/
def wrapInt (n : Int) : Int := (n + 2147483648) % 4294967296 - 2147483648

/-! ## Text output: `operator<<` -/

/-- The character of a decimal digit. -/
def digitChar (d : Nat) : Char := Char.ofNat (48 + d)

/-- Decimal digits of `n`, most significant first, in front of `acc`. -/
def showNatAux : Nat → Nat → List Char → List Char
  | 0, _, acc => acc
  | fuel + 1, n, acc =>
    if n < 10 then digitChar n :: acc
    else showNatAux fuel (n / 10) (digitChar (n % 10) :: acc)

/-- What `file << n` writes for an unsigned `n`. -/
def showNat (n : Nat) : List Char := showNatAux (n + 1) n []

/-- What `file << n` writes for an `int`. -/
def showInt : Int → List Char
  | Int.ofNat n => showNat n
  | Int.negSucc n => '-' :: showNat (n + 1)

/-- What `file << b` writes for a `bool` (no `boolalpha`). -/
def showBool (b : Bool) : List Char := if b then ['1'] else ['0']

/-- The eight fields of a book as `saveToFile` writes them, with `'|'` between them. -/
def recordText (b : Book) : List Char :=
  b.title.data ++ '|' :: (b.author.data ++ '|' :: (b.isbn.data ++ '|' :: (b.category.data ++
    '|' :: (showInt b.year ++ '|' :: (showInt b.totalCopies ++ '|' ::
      (showInt b.availableCopies ++ '|' :: showBool b.isAvailable))))))

/-- One record line of `saveToFile`, with the `endl`. -/
def bookLine (b : Book) : List Char := recordText b ++ ['\n']

/-- Everything `saveToFile` writes: the size of the vector, then one line per book. -/
def fileContents (books : List Book) : List Char :=
  showNat books.length ++ '\n' :: (books.map bookLine).flatten

/-- The method `Library::saveToFile`: the file is rewritten from the vector `allBooks`;
nothing happens when it cannot be opened. -/
def saveToFile (s : Library) : Library :=
  if s.writable then { s with disk := some (fileContents s.allBooks) } else s

/-! ## The tree -/

/-- The method `Library::insertTree`. -/
def insertTree : Tree → Book → Tree
  | Tree.nil, book => Tree.node Tree.nil book Tree.nil
  | Tree.node l b r, book =>
    if book.title.data < b.title.data then Tree.node (insertTree l book) b r
    else Tree.node l b (insertTree r book)

/-- The method `Library::searchTree`. -/
def searchTree : Tree → String → Bool
  | Tree.nil, _ => false
  | Tree.node l b r, title =>
    if b.title = title then true
    else if title.data < b.title.data then searchTree l title
    else searchTree r title

/-- The books visited by `Library::inOrder`, in the order they are displayed. -/
def inOrder : Tree → List Book
  | Tree.nil => []
  | Tree.node l b r => inOrder l ++ b :: inOrder r

/-! ## Book management -/

/-- The method `Library::addBook`: the new book goes to the tail of the list, into the tree and
to the back of the vector, then the file is saved. -/
def addBook (s : Library) (title author isbn category : String) (year copies : Int) : Library :=
  let newBook := Book.ctor title author isbn category year copies
  saveToFile { s with
    head := s.head ++ [newBook],
    root := insertTree s.root newBook,
    allBooks := s.allBooks ++ [newBook] }

/-- The `while (current)` loop of `borrowBook` over the linked list: the list after the first
node with this title and `availableCopies > 0` was updated, or `none` when the loop falls
through. -/
def borrowLoop (title : String) : List Book → Option (List Book)
  | [] => none
  | b :: rest =>
    if b.title = title ∧ b.availableCopies > 0 then
      some ({ b with
        availableCopies := b.availableCopies - 1,
        isAvailable := if b.availableCopies - 1 = 0 then false else b.isAvailable } :: rest)
    else (borrowLoop title rest).map (fun l => b :: l)

/-- The method `Library::borrowBook`. -/
def borrowBook (s : Library) (title : String) : Library × Outcome :=
  match borrowLoop title s.head with
  | some l => (saveToFile { s with head := l }, Outcome.borrowed)
  | none => (s, Outcome.notAvailable)

/-- The `while (current)` loop of `returnBook`. The increment `availableCopies++` is an `int`
increment: at `INT_MAX` it wraps to `INT_MIN`. -/
def returnLoop (title : String) : List Book → Option (List Book)
  | [] => none
  | b :: rest =>
    if b.title = title then
      some ({ b with
        availableCopies := wrapInt (b.availableCopies + 1),
        isAvailable := true } :: rest)
    else (returnLoop title rest).map (fun l => b :: l)

/-- The method `Library::returnBook`. -/
def returnBook (s : Library) (title : String) : Library × Outcome :=
  match returnLoop title s.head with
  | some l => (saveToFile { s with head := l }, Outcome.returned)
  | none => (s, Outcome.notFound)

/-- The `while (current)` loop of `deleteBook`: the first node with this title, and the list
without it. -/
def deleteLoop (title : String) : List Book → Option (Book × List Book)
  | [] => none
  | b :: rest =>
    if b.title = title then some (b, rest)
    else (deleteLoop title rest).map (fun p => (p.1, b :: p.2))

/-- The method `Library::deleteBook`. The file is saved from the vector first, and the vector is
rebuilt from the list afterwards, in the order of the source. -/
def deleteBook (s : Library) (title : String) : Library × Outcome :=
  if s.head = [] then (s, Outcome.libraryEmpty)
  else
    match deleteLoop title s.head with
    | some (d, l) =>
      let saved := saveToFile { s with deletedBooks := d :: s.deletedBooks, head := l }
      ({ saved with allBooks := saved.head }, Outcome.deleted)
    | none => (s, Outcome.notFound)

/-- The method `Library::restoreBook`. -/
def restoreBook (s : Library) : Library × Outcome :=
  match s.deletedBooks with
  | [] => (s, Outcome.noDeletedBooks)
  | b :: rest =>
    (addBook { s with deletedBooks := rest } b.title b.author b.isbn b.category b.year
      b.totalCopies, Outcome.restored)

/-! ## Searching -/

/-- The method `Library::searchByTitle`: the title is pushed on the queue, then the tree is
searched. -/
def searchByTitle (s : Library) (title : String) : Library × Bool :=
  ({ s with searchRequests := s.searchRequests ++ [title] }, searchTree s.root title)

/-- The `for` loop of `linearSearch` over the vector. -/
def linearSearchLoop (title : String) : List Book → Bool
  | [] => false
  | b :: rest => if b.title = title then true else linearSearchLoop title rest

/-- The method `Library::linearSearch`. -/
def linearSearch (s : Library) (title : String) : Bool :=
  linearSearchLoop title s.allBooks

/-- The contract of `std::sort(first, last, comp)` for the comparison
`a.title < b.title`: the result is a rearrangement of the input in which no later element
compares less than an earlier one. The order among books of equal title is unspecified. -/
def SortsByTitle (sort : List Book → List Book) : Prop :=
  ∀ l, (sort l).Perm l ∧ (sort l).Pairwise (fun a b => ¬ b.title.data < a.title.data)

/-- The `while (left <= right)` loop of `binarySearch`; `none` when the fuel runs out or when an
index falls outside the vector. -/
def binarySearchLoop (sortedBooks : List Book) (title : String) : Nat → Int → Int → Option Bool
  | 0, _, _ => none
  | fuel + 1, left, right =>
    if left ≤ right then
      let mid := left + (right - left).tdiv 2
      if mid < 0 then none
      else
        match sortedBooks[mid.toNat]? with
        | none => none
        | some b =>
          if b.title = title then some true
          else if b.title.data < title.data then binarySearchLoop sortedBooks title fuel (mid + 1) right
          else binarySearchLoop sortedBooks title fuel left (mid - 1)
    else some false

/-- The method `Library::binarySearch`, for a given behaviour `sort` of `std::sort`; the loop is
given one more step than the vector has elements. -/
def binarySearch (sort : List Book → List Book) (s : Library) (title : String) : Option Bool :=
  if s.allBooks = [] then some false
  else
    let sortedBooks := sort s.allBooks
    binarySearchLoop sortedBooks title (sortedBooks.length + 1) 0 ((sortedBooks.length : Int) - 1)

/-! ## Sorting -/

/-- The call `swap(v[i], v[j])`. -/
def swapAt (v : List Book) (i j : Nat) : List Book :=
  match v[i]?, v[j]? with
  | some a, some b => (v.set i b).set j a
  | _, _ => v

/-- The body of the inner loop of `bubbleSort`. -/
def bubbleStep (sorted : List Book) (j : Nat) : List Book :=
  match sorted[j]?, sorted[j + 1]? with
  | some a, some b => if b.title.data < a.title.data then swapAt sorted j (j + 1) else sorted
  | _, _ => sorted

/-- The inner loop of `bubbleSort`: `for (j = 0; j < sorted.size()-i-1; j++)`. -/
def bubblePass (sorted : List Book) (i : Nat) : List Book :=
  (List.range (sorted.length - i - 1)).foldl bubbleStep sorted

/-- The outer loop of `bubbleSort`: `for (i = 0; i < sorted.size()-1; i++)`. -/
def bubbleLoop (sorted : List Book) : List Book :=
  (List.range (sorted.length - 1)).foldl bubblePass sorted

/-- The method `Library::bubbleSort`: the sequence of books it displays, or `none` when it
reports that there are no books to sort. -/
def bubbleSort (s : Library) : Option (List Book) :=
  if s.allBooks = [] then none else some (bubbleLoop s.allBooks)

/-- The body of the inner loop of `selectionSort`. -/
def selectStep (sorted : List Book) (minIndex j : Nat) : Nat :=
  match sorted[j]?, sorted[minIndex]? with
  | some a, some m => if a.title.data < m.title.data then j else minIndex
  | _, _ => minIndex

/-- One round of the outer loop of `selectionSort`: the inner loop
`for (j = i+1; j < sorted.size(); j++)`, then the swap. -/
def selectionPass (sorted : List Book) (i : Nat) : List Book :=
  let minIndex := (List.range' (i + 1) (sorted.length - (i + 1))).foldl (selectStep sorted) i
  swapAt sorted i minIndex

/-- The outer loop of `selectionSort`: `for (i = 0; i < sorted.size()-1; i++)`. -/
def selectionLoop (sorted : List Book) : List Book :=
  (List.range (sorted.length - 1)).foldl selectionPass sorted

/-- The method `Library::selectionSort`: the sequence of books it displays, or `none` when it
reports that there are no books to sort. -/
def selectionSort (s : Library) : Option (List Book) :=
  if s.allBooks = [] then none else some (selectionLoop s.allBooks)

/-! ## The search queue -/

/-- The `while (!searchRequests.empty())` loop of `processSearchQueue`, run for at most `fuel`
rounds; `none` when the queue is still not empty after that many rounds. -/
def processLoop : Nat → Library → Option Library
  | 0, s => if s.searchRequests = [] then some s else none
  | fuel + 1, s =>
    match s.searchRequests with
    | [] => some s
    | title :: rest => processLoop fuel (searchByTitle { s with searchRequests := rest } title).1

/-- The method `Library::processSearchQueue`, with a bound on the number of rounds of its
loop. -/
def processSearchQueue (fuel : Nat) (s : Library) : Option Library :=
  if s.searchRequests = [] then some s else processLoop fuel s

/-! ## Text input: `operator>>`, `getline`, `stoi` -/

/-- The C function `isspace` in the default locale. -/
def isSpace (c : Char) : Bool :=
  c = ' ' || c = '\t' || c = '\n' || c = '\x0b' || c = '\x0c' || c = '\r'

/-- Reads decimal digits as long as there are some: the number read so far and what follows. -/
def readDigits : List Char → Nat → Nat × List Char
  | [], acc => (acc, [])
  | c :: cs, acc =>
    if c.isDigit then readDigits cs (acc * 10 + (c.toNat - 48)) else (acc, c :: cs)

/-- A run of at least one decimal digit. -/
def scanDigits : List Char → Option (Nat × List Char)
  | [] => none
  | c :: cs => if c.isDigit then some (readDigits (c :: cs) 0) else none

/-- An optional sign followed by at least one digit: the value and what follows, `none` when
there is no number here. -/
def scanInt : List Char → Option (Int × List Char)
  | [] => none
  | c :: cs =>
    if c = '-' then (scanDigits cs).map (fun p => (-(p.1 : Int), p.2))
    else if c = '+' then (scanDigits cs).map (fun p => ((p.1 : Int), p.2))
    else (scanDigits (c :: cs)).map (fun p => ((p.1 : Int), p.2))

/-- The function `std::stoi`: leading white space is skipped, what follows the digits is
ignored; `none` when it throws (`invalid_argument` without a number, `out_of_range` when the
number is no `int`). -/
def stoi (str : List Char) : Option Int :=
  match scanInt (str.dropWhile isSpace) with
  | none => none
  | some (v, _) => if INT_MIN ≤ v ∧ v ≤ INT_MAX then some v else none

/-- An input stream: the characters not read yet, and whether the stream has failed. -/
structure IStream where
  buf : List Char
  fail : Bool
deriving DecidableEq, Repr

/-- The extraction `file >> bookCount` from a stream, where `old` is the value the variable
held before. At the end of the file the variable is left alone; without a number it becomes 0;
a number outside `int` is clamped; in these three cases the stream fails. -/
def extractInt (file : IStream) (old : Int) : Int × IStream :=
  if file.fail then (old, file)
  else
    match file.buf.dropWhile isSpace with
    | [] => (old, { buf := [], fail := true })
    | c :: cs =>
      match scanInt (c :: cs) with
      | none => (0, { buf := c :: cs, fail := true })
      | some (v, rest) =>
        if v > INT_MAX then (INT_MAX, { buf := rest, fail := true })
        else if v < INT_MIN then (INT_MIN, { buf := rest, fail := true })
        else (v, { buf := rest, fail := false })

/-- The call `file.ignore()`: one character is dropped; at the end of the file the stream
fails. -/
def IStream.ignore (file : IStream) : IStream :=
  if file.fail then file
  else
    match file.buf with
    | [] => { buf := [], fail := true }
    | _ :: cs => { buf := cs, fail := false }

/-- The characters up to the first `delim`, and what follows that `delim`. -/
def upTo (delim : Char) : List Char → List Char × List Char
  | [] => ([], [])
  | c :: cs => if c = delim then ([], cs) else ((upTo delim cs).1.cons c, (upTo delim cs).2)

/-- The call `getline(file, line)` on a fresh `line`: the line read and the stream after it. A
failed or exhausted stream gives the empty line. -/
def IStream.getline (file : IStream) : List Char × IStream :=
  if file.fail then ([], file)
  else
    match file.buf with
    | [] => ([], { buf := [], fail := true })
    | c :: cs => ((upTo '\n' (c :: cs)).1, { buf := (upTo '\n' (c :: cs)).2, fail := false })

/-- The loop `while (getline(ss, part, '|')) parts.push_back(part)`, one character at a time:
`cur` is the part being read. Each `'|'` closes a part; the end of the line closes the last
part when at least one character was read for it, so that a line ending in `'|'` has no empty
last part. -/
def splitFrom : List Char → List Char → List (List Char)
  | [], cur => if cur = [] then [] else [cur]
  | c :: cs, cur => if c = '|' then cur :: splitFrom cs [] else splitFrom cs (cur ++ [c])

/-- The vector `parts` of `loadFromFile` for a line. -/
def splitParts (line : List Char) : List (List Char) := splitFrom line []

/-! ## Loading -/

/-- The three insertions of `loadFromFile` for a book read from the file: tail of the list,
tree, back of the vector. -/
def loadRecord (s : Library) (book : Book) : Library :=
  { s with
    head := s.head ++ [book],
    root := insertTree s.root book,
    allBooks := s.allBooks ++ [book] }

/-- The `for (i = 0; i < bookCount; i++)` loop of `loadFromFile`, with the number of rounds
left; `none` when `stoi` throws. -/
def loadLoop : Nat → IStream → Library → Option Library
  | 0, _, s => some s
  | n + 1, file, s =>
    match splitParts file.getline.1 with
    | [p0, p1, p2, p3, p4, p5, p6, p7] =>
      match stoi p4 with
      | none => none
      | some year =>
        match stoi p5 with
        | none => none
        | some totalCopies =>
          match stoi p6 with
          | none => none
          | some availableCopies =>
            let book : Book :=
              { Book.ctor (String.mk p0) (String.mk p1) (String.mk p2) (String.mk p3) year
                  totalCopies with
                availableCopies := availableCopies,
                isAvailable := decide (p7 = ['1']) }
            loadLoop n file.getline.2 (loadRecord s book)
    | _ => loadLoop n file.getline.2 s

/-- The three `addBook` calls of `loadFromFile` when the file cannot be opened. -/
def addDefaults (s : Library) : Library :=
  addBook (addBook (addBook s
    "C++ Programming" "Ahmed Ali" "111111" "Programming" 2023 5)
    "Data Structures" "Sarah Mohamed" "222222" "Programming" 2022 3)
    "Mathematics" "Dr. Sami" "333333" "Science" 2021 2

/-- The method `Library::loadFromFile`; `bookCount0` is the value the uninitialised local
`bookCount` happens to hold; `none` when `stoi` throws. -/
def loadFromFile (s : Library) (bookCount0 : Int) : Option Library :=
  match s.disk with
  | none => some (addDefaults s)
  | some contents =>
    let r := extractInt { buf := contents, fail := false } bookCount0
    loadLoop r.1.toNat r.2.ignore s

/-- The state of the members before the body of the constructor `Library::Library` runs. -/
def Library.blank (disk : Option (List Char)) (writable : Bool) : Library :=
  { head := [], root := Tree.nil, deletedBooks := [], searchRequests := [], allBooks := [],
    disk := disk, writable := writable }

/-- The constructor `Library::Library`. -/
def Library.create (disk : Option (List Char)) (writable : Bool) (bookCount0 : Int) :
    Option Library :=
  loadFromFile (Library.blank disk writable) bookCount0

/-! ## Scenarios -/

/-- A library built without a data file, whose file can be written. -/
def fresh : Library := Library.blank none true

/-- The library after `addBook("A", "X", "1", "Fiction", 2000, 2)` on a blank one. -/
def oneBook : Library := addBook fresh "A" "X" "1" "Fiction" 2000 2

/-- The library as the constructor leaves it when there is no data file. -/
def seeded : Library := addDefaults fresh

/-- A library with a single copy of a single book, after that copy was borrowed. -/
def lentOut : Library := (borrowBook (addBook fresh "A" "X" "1" "Fiction" 2000 1) "A").1

/-- The one-book library after both copies were borrowed. -/
def allLent : Library := (borrowBook (borrowBook oneBook "A").1 "A").1

/-- The one-book library after one copy was borrowed. -/
def partlyLent : Library := (borrowBook oneBook "A").1

/-- The seeded library with two more books, one of them a second "Mathematics". -/
def fiveBooks : Library :=
  addBook (addBook seeded "Zebra" "Z" "4" "Nature" 1999 1) "Mathematics" "N. N." "5" "Science" 2024 7

/-- The seeded library after one call of `searchByTitle`. -/
def searchedOnce : Library := (searchByTitle seeded "Mathematics").1

/-! ## Notions used in the statements -/

/-- The arguments of one call of `addBook`. -/
structure AddCall where
  title : String
  author : String
  isbn : String
  category : String
  year : Int
  copies : Int
deriving DecidableEq, Repr

/-- A sequence of `addBook` calls, first call first. -/
def addAll (s : Library) (calls : List AddCall) : Library :=
  calls.foldl (fun acc c => addBook acc c.title c.author c.isbn c.category c.year c.copies) s

/-- A behaviour of `std::sort` for the comparison by title: a stable merge sort. -/
def titleSort (l : List Book) : List Book :=
  l.mergeSort (fun a b => decide (a.title.data ≤ b.title.data))

/-- The title at position `k` of a vector, as a list of characters (empty outside the
vector). -/
def keyAt (v : List Book) (k : Nat) : List Char :=
  match v[k]? with
  | some b => b.title.data
  | none => []

/-! ## Loop invariants of the two sorts -/

/-- The state of `bubbleSort` after `i` rounds of its outer loop on a vector of `n` books:
the last `i` positions are in order and hold titles that are at least every title before
them. -/
def BubbleInv (orig : List Book) (n i : Nat) (w : List Book) : Prop :=
  w.length = n ∧ w.Perm orig ∧
    (∀ p q, n - i ≤ p → p < q → q < n → keyAt w p ≤ keyAt w q) ∧
    (∀ p q, p < n - i → n - i ≤ q → q < n → keyAt w p ≤ keyAt w q)

/-- The state of `selectionSort` after `i` rounds of its outer loop on a vector of `n` books:
the first `i` positions are in order and hold titles that are at most every title after
them. -/
def SelectInv (orig : List Book) (n i : Nat) (w : List Book) : Prop :=
  w.length = n ∧ w.Perm orig ∧
    (∀ p q, p < q → q < i → keyAt w p ≤ keyAt w q) ∧
    (∀ p q, p < i → i ≤ q → q < n → keyAt w p ≤ keyAt w q)

/-! ## Records that can be written and read back -/

/-- A string field that holds neither the separator `'|'` nor a newline. -/
def cleanText (t : String) : Prop := '|' ∉ t.data ∧ '\n' ∉ t.data

/-- The four string fields of a book hold neither `'|'` nor a newline. -/
def Book.clean (b : Book) : Prop :=
  cleanText b.title ∧ cleanText b.author ∧ cleanText b.isbn ∧ cleanText b.category

/-- A value of the C++ type `int`. -/
def isInt (n : Int) : Prop := INT_MIN ≤ n ∧ n ≤ INT_MAX

/-- The three `int` fields of a book are values of the type `int`. -/
def Book.wellTyped (b : Book) : Prop :=
  isInt b.year ∧ isInt b.totalCopies ∧ isInt b.availableCopies

instance (t : String) : Decidable (cleanText t) := by
  unfold cleanText; infer_instance

instance (b : Book) : Decidable b.clean := by
  unfold Book.clean; infer_instance

instance (n : Int) : Decidable (isInt n) := by
  unfold isInt; infer_instance

instance (b : Book) : Decidable b.wellTyped := by
  unfold Book.wellTyped; infer_instance

/-- A library whose vector holds records with an empty title, blanks, a negative year and
counters that do not agree with each other. -/
def oddShelf : Library :=
  { Library.blank none true with
    allBooks :=
      [{ title := "", author := " a  b ", isbn := "", category := "x", year := -5,
         totalCopies := 0, availableCopies := -3, isAvailable := false },
       { title := " 12", author := "", isbn := "0-1", category := "", year := 2147483647,
         totalCopies := -2147483648, availableCopies := 7, isAvailable := true }] }

/-- The number that `readDigits` accumulates over a run of digits, starting from `acc`. -/
def digitsValue (ds : List Char) (acc : Nat) : Nat :=
  ds.foldl (fun x c => x * 10 + (c.toNat - 48)) acc

/-- The book that `borrowBook` leaves in the node it found. -/
def Book.lend (b : Book) : Book :=
  { b with
    availableCopies := b.availableCopies - 1,
    isAvailable := if b.availableCopies - 1 = 0 then false else b.isAvailable }

/-! ## Sequences of calls -/

/-- One call of a public method of `Library` that changes the state and returns. -/
inductive Op where
  | addBook (c : AddCall)
  | borrowBook (title : String)
  | returnBook (title : String)
  | deleteBook (title : String)
  | restoreBook
  | searchByTitle (title : String)
deriving DecidableEq, Repr

/-- The state after one call. -/
def applyOp (s : Library) : Op → Library
  | Op.addBook c => addBook s c.title c.author c.isbn c.category c.year c.copies
  | Op.borrowBook title => (borrowBook s title).1
  | Op.returnBook title => (returnBook s title).1
  | Op.deleteBook title => (deleteBook s title).1
  | Op.restoreBook => (restoreBook s).1
  | Op.searchByTitle title => (searchByTitle s title).1

/-- The state after a sequence of calls, first call first. -/
def run (s : Library) (ops : List Op) : Library := ops.foldl applyOp s

/-- The books that one call hands to `insertTree`: the new book of `addBook`, and the book
that `restoreBook` adds again when the stack is not empty. -/
def insertedBy (s : Library) : Op → List Book
  | Op.addBook c => [Book.ctor c.title c.author c.isbn c.category c.year c.copies]
  | Op.restoreBook =>
    match s.deletedBooks with
    | [] => []
    | b :: _ => [Book.ctor b.title b.author b.isbn b.category b.year b.totalCopies]
  | _ => []

/-- The books handed to `insertTree` during a sequence of calls, in the order of the calls. -/
def history : Library → List Op → List Book
  | _, [] => []
  | s, op :: ops => insertedBy s op ++ history (applyOp s op) ops

/-- A call whose `int` argument `copies` is a value of the type `int`. -/
def Op.typed : Op → Bool
  | Op.addBook c => decide (isInt c.copies)
  | _ => true

/-- The number of `returnBook` calls in a sequence of calls. -/
def returnCount : List Op → Nat
  | [] => 0
  | Op.returnBook _ :: ops => returnCount ops + 1
  | _ :: ops => returnCount ops

/-- A call that is not an `addBook` whose number of copies is negative or, raised by `r`,
leaves the type `int`. -/
def Op.copiesFit (r : Nat) : Op → Bool
  | Op.addBook c => decide (0 ≤ c.copies ∧ c.copies + r ≤ INT_MAX)
  | _ => true

/-- The bounds of a book after at most `r` of the `total` calls of `returnBook` of a run: the
available copies are between 0 and `totalCopies + r`, and `totalCopies + total` is an `int`. -/
def Book.within (total r : Nat) (b : Book) : Prop :=
  0 ≤ b.availableCopies ∧ b.availableCopies ≤ b.totalCopies + r ∧ 0 ≤ b.totalCopies ∧
    b.totalCopies + total ≤ INT_MAX

/-- A call that is not a `returnBook`. -/
def Op.notReturn : Op → Bool
  | Op.returnBook _ => false
  | _ => true

/-- The book that `returnBook` leaves in the node it found. -/
def Book.giveBack (b : Book) : Book :=
  { b with availableCopies := wrapInt (b.availableCopies + 1), isAvailable := true }

/-- The six fields of a book that no method changes after construction. -/
def Book.fixedFields (b : Book) : String × String × String × String × Int × Int :=
  (b.title, b.author, b.isbn, b.category, b.year, b.totalCopies)

/-- The search tree property of the tree of `insertTree`: titles in the left subtree are less
than the title of the node, titles in the right subtree are not. -/
def IsBST : Tree → Prop
  | Tree.nil => True
  | Tree.node l b r =>
    IsBST l ∧ IsBST r ∧ (∀ x ∈ inOrder l, x.title.data < b.title.data) ∧
      (∀ x ∈ inOrder r, ¬ x.title.data < b.title.data)

/-- The three default books as `addBook` constructs them. -/
def defaultBooks : List Book :=
  [Book.ctor "C++ Programming" "Ahmed Ali" "111111" "Programming" 2023 5,
   Book.ctor "Data Structures" "Sarah Mohamed" "222222" "Programming" 2022 3,
   Book.ctor "Mathematics" "Dr. Sami" "333333" "Science" 2021 2]

/-- A data file with one line of eight fields whose year is not a number. -/
def badYearFile : List Char := "1\nA|X|1|Fiction|soon|2|2|1\n".data

/-- A data file with a line of seven fields between two good lines. -/
def shortLineFile : List Char :=
  "3\nA|X|1|Fiction|2000|2|1|1\nB|Y|2|Fiction|2001|1\nC|Z|3|Science|2002|4|0|0\n".data

/-- A sequence of calls with a borrow, a deletion, an addition, a restore and another
borrow. -/
def busyDay : List Op :=
  [Op.borrowBook "Mathematics", Op.deleteBook "Data Structures",
   Op.addBook ⟨"A", "X", "1", "Fiction", 2000, 2⟩, Op.restoreBook, Op.borrowBook "A"]

/-- The one-book library after `addBook` with `INT_MAX` copies. -/
def maxCopies : Library :=
  run fresh [Op.addBook ⟨"A", "X", "1", "Fiction", 2000, 2147483647⟩]

/-- The calls of `busyDay` followed by two returns of "Mathematics". -/
def busyWeek : List Op :=
  busyDay ++ [Op.returnBook "Mathematics", Op.returnBook "Mathematics"]

/-- The one-book library after `addBook` with -1 copies. -/
def minusOne : Library := run fresh [Op.addBook ⟨"A", "X", "1", "Fiction", 2000, -1⟩]

/-- The one-book library with one of its two copies lent, as a sequence of calls. -/
def lendOne : List Op := [Op.addBook ⟨"A", "X", "1", "Fiction", 2000, 2⟩, Op.borrowBook "A"]

/-- The stable sort by title of a sequence of books: the merge sort of the library, which puts
the books in non-decreasing order of title and keeps books of equal title in the order of the
sequence. -/
def stableSortByTitle (books : List Book) : List Book :=
  books.mergeSort (fun a b => decide (a.title.data ≤ b.title.data))

/-- A sequence of insertions in which the titles "M" and "B" come twice. -/
def twins : List Book :=
  [Book.ctor "M" "first" "1" "x" 2001 1, Book.ctor "B" "first" "2" "x" 2002 1,
   Book.ctor "M" "second" "3" "x" 2003 1, Book.ctor "Z" "only" "4" "x" 2004 1,
   Book.ctor "B" "second" "5" "x" 2005 1, Book.ctor "M" "third" "6" "x" 2006 1]

/-! # Properties -/

set_option maxRecDepth 100000

/-! ## Borrowing -/

theorem borrowLoop_found (title : String) (l : List Book)
    (h : ∃ b ∈ l, b.title = title ∧ b.availableCopies > 0) :
    ∃ pre b post, l = pre ++ b :: post ∧
      (∀ x ∈ pre, ¬ (x.title = title ∧ x.availableCopies > 0)) ∧
      b.title = title ∧ b.availableCopies > 0 ∧
      borrowLoop title l = some (pre ++ b.lend :: post) := by
  induction l with
  | nil => simp at h
  | cons a rest ih =>
    by_cases ha : a.title = title ∧ a.availableCopies > 0
    · exact ⟨[], a, rest, rfl, by simp, ha.1, ha.2, by simp [borrowLoop, ha, Book.lend]⟩
    · have h2 : ∃ b ∈ rest, b.title = title ∧ b.availableCopies > 0 := by
        obtain ⟨b, hb, hb2⟩ := h
        rcases List.mem_cons.1 hb with rfl | hb
        · exact absurd hb2 ha
        · exact ⟨b, hb, hb2⟩
      obtain ⟨pre, b, post, hl, hpre, hb1, hb2, hloop⟩ := ih h2
      refine ⟨a :: pre, b, post, by simp [hl], ?_, hb1, hb2, ?_⟩
      · intro x hx
        rcases List.mem_cons.1 hx with rfl | hx
        · exact ha
        · exact hpre x hx
      · simp only [borrowLoop, if_neg ha, hloop, Option.map_some', List.cons_append]

theorem borrowLoop_eq_none (title : String) (l : List Book) :
    borrowLoop title l = none ↔ ∀ b ∈ l, ¬ (b.title = title ∧ b.availableCopies > 0) := by
  induction l with
  | nil => simp [borrowLoop]
  | cons a rest ih =>
    by_cases ha : a.title = title ∧ a.availableCopies > 0
    · simp only [borrowLoop, if_pos ha, List.mem_cons, forall_eq_or_imp]
      constructor
      · intro h; cases h
      · intro h; exact absurd ha h.1
    · simp only [borrowLoop, if_neg ha, Option.map_eq_none', ih, List.mem_cons, forall_eq_or_imp]
      constructor
      · intro h; exact ⟨ha, h⟩
      · intro h; exact h.2

/-- C9. A successful `borrowBook`: when some node of the list has the title and a positive
`availableCopies`, the first such node loses exactly one available copy, its `isAvailable`
becomes `false` exactly when the new count is 0 and keeps its value otherwise, every other node
and field of the list is unchanged, the other members keep their values and the file is saved. -/
theorem borrowBook_success (s : Library) (title : String)
    (h : ∃ b ∈ s.head, b.title = title ∧ b.availableCopies > 0) :
    ∃ pre b post, s.head = pre ++ b :: post ∧
      (∀ x ∈ pre, ¬ (x.title = title ∧ x.availableCopies > 0)) ∧
      b.title = title ∧ b.availableCopies > 0 ∧
      borrowBook s title =
        (saveToFile { s with head := pre ++
          { b with
            availableCopies := b.availableCopies - 1,
            isAvailable := if b.availableCopies - 1 = 0 then false else b.isAvailable } :: post },
          Outcome.borrowed) := by
  obtain ⟨pre, b, post, hl, hpre, hb1, hb2, hloop⟩ := borrowLoop_found title s.head h
  exact ⟨pre, b, post, hl, hpre, hb1, hb2, by simp [borrowBook, hloop, Book.lend]⟩

/-- C9, on the scenario of the specification: after `addBook("A","X","1","Fiction",2000,2)`
two calls of `borrowBook("A")` leave 1 and then 0 available copies, with `isAvailable` true and
then false. -/
theorem borrowBook_success_witness :
    (∃ pre b post, oneBook.head = pre ++ b :: post ∧
      (∀ x ∈ pre, ¬ (x.title = "A" ∧ x.availableCopies > 0)) ∧
      b.title = "A" ∧ b.availableCopies > 0 ∧
      borrowBook oneBook "A" =
        (saveToFile { oneBook with head := pre ++
          { b with
            availableCopies := b.availableCopies - 1,
            isAvailable := if b.availableCopies - 1 = 0 then false else b.isAvailable } :: post },
          Outcome.borrowed)) ∧
    (borrowBook oneBook "A").1.head.map (fun b => (b.availableCopies, b.isAvailable))
      = [(1, true)] ∧
    (borrowBook (borrowBook oneBook "A").1 "A").1.head.map
      (fun b => (b.availableCopies, b.isAvailable)) = [(0, false)] :=
  ⟨borrowBook_success oneBook "A" ⟨Book.ctor "A" "X" "1" "Fiction" 2000 2, by decide, by decide⟩,
    by decide, by decide⟩

/-- C10. A failed `borrowBook`: the report is "not available" exactly when no node of the list
has both the title and a positive `availableCopies`, and then the whole state (list, tree,
stack, queue, vector and file) is the one before the call. -/
theorem borrowBook_failure (s : Library) (title : String) :
    ((borrowBook s title).2 = Outcome.notAvailable ↔
      ∀ b ∈ s.head, ¬ (b.title = title ∧ b.availableCopies > 0)) ∧
    ((borrowBook s title).2 = Outcome.notAvailable → (borrowBook s title).1 = s) := by
  cases hloop : borrowLoop title s.head with
  | none =>
    have hall := (borrowLoop_eq_none title s.head).1 hloop
    simp only [borrowBook, hloop, true_iff, true_implies, and_true]
    exact hall
  | some l =>
    have hne : ¬ ∀ b ∈ s.head, ¬ (b.title = title ∧ b.availableCopies > 0) := by
      intro hall
      rw [(borrowLoop_eq_none title s.head).2 hall] at hloop
      cases hloop
    simp only [borrowBook, hloop, reduceCtorEq, false_iff, false_implies, and_true]
    exact hne

/-- C10, on the scenario of the specification: with both copies of "A" lent, a further
`borrowBook("A")` reports "not available" and leaves the state as it was. -/
theorem borrowBook_failure_witness :
    (borrowBook allLent "A").2 = Outcome.notAvailable ∧ (borrowBook allLent "A").1 = allLent :=
  ⟨(borrowBook_failure allLent "A").1.2 (by decide),
    (borrowBook_failure allLent "A").2 ((borrowBook_failure allLent "A").1.2 (by decide))⟩

@[simp] theorem saveToFile_head (s : Library) : (saveToFile s).head = s.head := by
  unfold saveToFile; split <;> rfl

@[simp] theorem saveToFile_allBooks (s : Library) : (saveToFile s).allBooks = s.allBooks := by
  unfold saveToFile; split <;> rfl

@[simp] theorem saveToFile_deletedBooks (s : Library) :
    (saveToFile s).deletedBooks = s.deletedBooks := by
  unfold saveToFile; split <;> rfl

@[simp] theorem saveToFile_searchRequests (s : Library) :
    (saveToFile s).searchRequests = s.searchRequests := by
  unfold saveToFile; split <;> rfl

@[simp] theorem saveToFile_root (s : Library) : (saveToFile s).root = s.root := by
  unfold saveToFile; split <;> rfl

@[simp] theorem saveToFile_writable (s : Library) : (saveToFile s).writable = s.writable := by
  unfold saveToFile; split <;> rfl

theorem saveToFile_disk (s : Library) (h : s.writable = true) :
    (saveToFile s).disk = some (fileContents s.allBooks) := by
  simp [saveToFile, h]

/-- What a successful `borrowBook` writes: the serialisation of the vector, which the call
does not touch. -/
theorem borrowBook_disk (s : Library) (title : String) (hw : s.writable = true)
    (h : (borrowBook s title).2 = Outcome.borrowed) :
    (borrowBook s title).1.disk = some (fileContents s.allBooks) ∧
      (borrowBook s title).1.allBooks = s.allBooks := by
  cases hloop : borrowLoop title s.head with
  | none => simp [borrowBook, hloop] at h
  | some l => simp [borrowBook, hloop, saveToFile, hw]

/-- What a successful `deleteBook` writes: the serialisation of the vector as it was before
the call, since the vector is rebuilt only after the file is saved. -/
theorem deleteBook_disk (s : Library) (title : String) (hw : s.writable = true)
    (h : (deleteBook s title).2 = Outcome.deleted) :
    (deleteBook s title).1.disk = some (fileContents s.allBooks) ∧
      (deleteBook s title).1.allBooks = (deleteBook s title).1.head := by
  unfold deleteBook at h ⊢
  by_cases he : s.head = []
  · simp [he] at h
  · cases hloop : deleteLoop title s.head with
    | none => simp [he, hloop] at h
    | some p => simp [he, hloop, saveToFile, hw]

/-- C2. The snapshot written by a successful `borrowBook` is not the list after the decrement:
on the one-book library the call succeeds and leaves 1 available copy in the list, while the
file it writes still says 2, so the file differs from the serialisation of the list. -/
theorem borrowBook_snapshot_stale :
    (borrowBook oneBook "A").2 = Outcome.borrowed ∧
    oneBook.head.map Book.availableCopies = [2] ∧
    (borrowBook oneBook "A").1.head.map Book.availableCopies = [1] ∧
    (borrowBook oneBook "A").1.disk = some "1\nA|X|1|Fiction|2000|2|2|1\n".data ∧
    (borrowBook oneBook "A").1.disk ≠ some (fileContents (borrowBook oneBook "A").1.head) := by
  decide

/-- C3. The snapshot written by a successful `deleteBook` still holds the deleted record: on
the seeded library `deleteBook("Mathematics")` succeeds and leaves two books in the list, while
the file it writes has the three lines of before the call, and a library built from that file
has the three books again. -/
theorem deleteBook_snapshot_stale :
    (deleteBook seeded "Mathematics").2 = Outcome.deleted ∧
    (deleteBook seeded "Mathematics").1.head.map Book.title
      = ["C++ Programming", "Data Structures"] ∧
    (deleteBook seeded "Mathematics").1.disk = some ("3\nC++ Programming|Ahmed Ali|111111|Programming|2023|5|5|1\nData Structures|Sarah Mohamed|222222|Programming|2022|3|3|1\nMathematics|Dr. Sami|333333|Science|2021|2|2|1\n").data ∧
    (deleteBook seeded "Mathematics").1.disk
      ≠ some (fileContents (deleteBook seeded "Mathematics").1.head) ∧
    (Library.create (deleteBook seeded "Mathematics").1.disk true 0).map
        (fun l => l.head.map Book.title)
      = some ["C++ Programming", "Data Structures", "Mathematics"] := by
  decide

theorem processLoop_stuck (fuel : Nat) (s : Library) (h : s.searchRequests ≠ []) :
    processLoop fuel s = none := by
  induction fuel generalizing s with
  | zero => simp [processLoop, h]
  | succ n ih =>
    cases hq : s.searchRequests with
    | nil => exact absurd hq h
    | cons title rest =>
      simp only [processLoop, hq]
      apply ih
      simp [searchByTitle]

/-- C4. `processSearchQueue` does not run to completion on a queue that is not empty: every
round of its loop pops the front title and `searchByTitle` pushes it back, so no number of
rounds empties the queue. -/
theorem processSearchQueue_never_returns (fuel : Nat) (s : Library)
    (h : s.searchRequests ≠ []) : processSearchQueue fuel s = none := by
  simp only [processSearchQueue, if_neg h]
  exact processLoop_stuck fuel s h

/-- C4, on the seeded library after one `searchByTitle("Mathematics")`. -/
theorem processSearchQueue_never_returns_witness :
    searchedOnce.searchRequests = ["Mathematics"] ∧
      processSearchQueue 1000 searchedOnce = none :=
  ⟨by decide, processSearchQueue_never_returns 1000 searchedOnce (by decide)⟩

theorem wrapInt_of_isInt (n : Int) (h : isInt n) : wrapInt n = n := by
  unfold isInt INT_MIN INT_MAX at h
  unfold wrapInt
  omega

theorem wrapInt_isInt (n : Int) : isInt (wrapInt n) := by
  unfold isInt INT_MIN INT_MAX wrapInt
  omega

theorem wrapInt_overflow : wrapInt (INT_MAX + 1) = INT_MIN := by
  decide

theorem borrowLoop_at (title : String) (pre : List Book) (b : Book) (post : List Book)
    (hpre : ∀ x ∈ pre, ¬ (x.title = title ∧ x.availableCopies > 0))
    (hb : b.title = title) (hpos : b.availableCopies > 0) :
    borrowLoop title (pre ++ b :: post) = some (pre ++ b.lend :: post) := by
  induction pre with
  | nil => simp [borrowLoop, hb, hpos, Book.lend]
  | cons a rest ih =>
    have ha : ¬ (a.title = title ∧ a.availableCopies > 0) := hpre a (List.mem_cons_self _ _)
    have hrest := ih (fun x hx => hpre x (List.mem_cons_of_mem _ hx))
    rw [List.cons_append, borrowLoop, if_neg ha, hrest]
    rfl

theorem returnLoop_at (title : String) (pre : List Book) (b : Book) (post : List Book)
    (hpre : ∀ x ∈ pre, x.title ≠ title) (hb : b.title = title) :
    returnLoop title (pre ++ b :: post) =
      some (pre ++ { b with
        availableCopies := wrapInt (b.availableCopies + 1),
        isAvailable := true } :: post) := by
  induction pre with
  | nil => simp [returnLoop, hb]
  | cons a rest ih =>
    have ha : a.title ≠ title := hpre a (List.mem_cons_self _ _)
    have hrest := ih (fun x hx => hpre x (List.mem_cons_of_mem _ hx))
    rw [List.cons_append, returnLoop, if_neg ha, hrest]
    rfl

/-- C6 as stated fails: in the library whose only copy of "A" is lent, "A" has a record with
`totalCopies = 1`, `borrowBook("A")` reports "not available" and `returnBook("A")` then raises
`availableCopies` from 0 to 1. -/
theorem borrow_return_changes_count :
    (∃ b ∈ lentOut.head, b.title = "A" ∧ b.totalCopies ≥ 1) ∧
    lentOut.head.map Book.availableCopies = [0] ∧
    (borrowBook lentOut "A").2 = Outcome.notAvailable ∧
    (returnBook (borrowBook lentOut "A").1 "A").1.head.map Book.availableCopies = [1] := by
  decide

/-- C6, amended. When the first node of the list with the title has a positive
`availableCopies` (an `int`, so at most `INT_MAX`), `borrowBook` followed by `returnBook` for
that title both succeed, leave the `availableCopies` of every node at its value before the
borrow, leave that node with `isAvailable = true`, and change nothing else in the list. -/
theorem borrow_then_return (s : Library) (title : String) (pre : List Book) (b : Book)
    (post : List Book) (hl : s.head = pre ++ b :: post) (hpre : ∀ x ∈ pre, x.title ≠ title)
    (hb : b.title = title) (hpos : b.availableCopies > 0)
    (hint : b.availableCopies ≤ INT_MAX) :
    (borrowBook s title).2 = Outcome.borrowed ∧
    (returnBook (borrowBook s title).1 title).2 = Outcome.returned ∧
    (returnBook (borrowBook s title).1 title).1.head = pre ++ { b with isAvailable := true } :: post ∧
    (returnBook (borrowBook s title).1 title).1.head.map Book.availableCopies
      = s.head.map Book.availableCopies := by
  have h1 : borrowLoop title s.head = some (pre ++ b.lend :: post) := by
    rw [hl]
    exact borrowLoop_at title pre b post (fun x hx h => hpre x hx h.1) hb hpos
  have h2 := returnLoop_at title pre b.lend post hpre (by simpa [Book.lend] using hb)
  have h3 : borrowBook s title = (saveToFile { s with head := pre ++ b.lend :: post }, Outcome.borrowed) := by
    simp [borrowBook, h1]
  have hback : wrapInt b.availableCopies = b.availableCopies :=
    wrapInt_of_isInt _ ⟨by unfold INT_MIN; omega, hint⟩
  simp only [h3, returnBook, saveToFile_head, h2, hl, true_and]
  simp [Book.lend, hback]

/-- C6, amended, on the one-book library with its two available copies. -/
theorem borrow_then_return_witness :
    (borrowBook oneBook "A").2 = Outcome.borrowed ∧
    (returnBook (borrowBook oneBook "A").1 "A").2 = Outcome.returned ∧
    (returnBook (borrowBook oneBook "A").1 "A").1.head
      = [] ++ { Book.ctor "A" "X" "1" "Fiction" 2000 2 with isAvailable := true } :: [] ∧
    (returnBook (borrowBook oneBook "A").1 "A").1.head.map Book.availableCopies
      = oneBook.head.map Book.availableCopies :=
  borrow_then_return oneBook "A" [] (Book.ctor "A" "X" "1" "Fiction" 2000 2) [] (by decide)
    (by decide) (by decide) (by decide) (by decide)

theorem deleteLoop_found (title : String) (l : List Book) (h : ∃ b ∈ l, b.title = title) :
    ∃ pre d post, l = pre ++ d :: post ∧ (∀ x ∈ pre, x.title ≠ title) ∧ d.title = title ∧
      deleteLoop title l = some (d, pre ++ post) := by
  induction l with
  | nil => simp at h
  | cons a rest ih =>
    by_cases ha : a.title = title
    · exact ⟨[], a, rest, rfl, by simp, ha, by simp [deleteLoop, ha]⟩
    · have h2 : ∃ b ∈ rest, b.title = title := by
        obtain ⟨b, hb, hb2⟩ := h
        rcases List.mem_cons.1 hb with rfl | hb
        · exact absurd hb2 ha
        · exact ⟨b, hb, hb2⟩
      obtain ⟨pre, d, post, hl, hpre, hd, hloop⟩ := ih h2
      refine ⟨a :: pre, d, post, by simp [hl], ?_, hd, ?_⟩
      · intro x hx
        rcases List.mem_cons.1 hx with rfl | hx
        · exact ha
        · exact hpre x hx
      · simp only [deleteLoop, if_neg ha, hloop, Option.map_some', List.cons_append]

/-- C7. `deleteBook` followed by `restoreBook`: when some node of the list has the title, the
first such node `d` is removed and a book is appended at the end of the list with the title,
author, isbn, category, year and totalCopies of `d`, with `availableCopies = totalCopies` and
`isAvailable = true`, whatever the `availableCopies` of `d` was. -/
theorem delete_then_restore (s : Library) (title : String) (h : ∃ b ∈ s.head, b.title = title) :
    ∃ pre d post, s.head = pre ++ d :: post ∧ (∀ x ∈ pre, x.title ≠ title) ∧ d.title = title ∧
      (deleteBook s title).2 = Outcome.deleted ∧
      (restoreBook (deleteBook s title).1).2 = Outcome.restored ∧
      (restoreBook (deleteBook s title).1).1.head
        = pre ++ post ++ [{ d with availableCopies := d.totalCopies, isAvailable := true }] := by
  obtain ⟨pre, d, post, hl, hpre, hd, hloop⟩ := deleteLoop_found title s.head h
  refine ⟨pre, d, post, hl, hpre, hd, ?_⟩
  have hne : s.head ≠ [] := by rw [hl]; simp
  simp [deleteBook, hne, hloop, restoreBook, addBook, Book.ctor]

/-- C7, on the one-book library after one of its two copies was borrowed: the restored record
has both copies available again. -/
theorem delete_then_restore_witness :
    partlyLent.head.map Book.availableCopies = [1] ∧
    (restoreBook (deleteBook partlyLent "A").1).1.head = [Book.ctor "A" "X" "1" "Fiction" 2000 2] ∧
    ∃ pre d post, partlyLent.head = pre ++ d :: post ∧ (∀ x ∈ pre, x.title ≠ "A") ∧
      d.title = "A" ∧
      (deleteBook partlyLent "A").2 = Outcome.deleted ∧
      (restoreBook (deleteBook partlyLent "A").1).2 = Outcome.restored ∧
      (restoreBook (deleteBook partlyLent "A").1).1.head
        = pre ++ post ++ [{ d with availableCopies := d.totalCopies, isAvailable := true }] :=
  ⟨by decide, by decide, delete_then_restore partlyLent "A" (by decide)⟩

/-! ## Linear and binary search -/

theorem linearSearchLoop_iff (title : String) (l : List Book) :
    linearSearchLoop title l = true ↔ ∃ b ∈ l, b.title = title := by
  induction l with
  | nil => simp [linearSearchLoop]
  | cons a rest ih =>
    by_cases ha : a.title = title
    · simp [linearSearchLoop, ha]
    · simp [linearSearchLoop, ha, ih]

theorem linearSearchLoop_perm (title : String) {l₁ l₂ : List Book} (h : l₁.Perm l₂) :
    linearSearchLoop title l₁ = linearSearchLoop title l₂ := by
  rw [Bool.eq_iff_iff, linearSearchLoop_iff, linearSearchLoop_iff]
  constructor
  · rintro ⟨b, hb, hb2⟩; exact ⟨b, h.mem_iff.1 hb, hb2⟩
  · rintro ⟨b, hb, hb2⟩; exact ⟨b, h.mem_iff.2 hb, hb2⟩

theorem binarySearchLoop_spec (v : List Book) (title : String)
    (hsorted : v.Pairwise (fun a b => ¬ b.title.data < a.title.data)) :
    ∀ (fuel : Nat) (left right : Int), 0 ≤ left → right < v.length →
      left ≤ right + 1 → right - left + 1 < fuel →
      (∀ (i : Nat) (hi : i < v.length), v[i].title = title → left ≤ i ∧ (i : Int) ≤ right) →
      binarySearchLoop v title fuel left right = some (linearSearchLoop title v) := by
  intro fuel
  induction fuel with
  | zero =>
    intro left right h0 hr hwf hf hinv
    omega
  | succ fuel ih =>
    intro left right h0 hr hwf hf hinv
    rw [binarySearchLoop]
    by_cases hlr : left ≤ right
    · rw [if_pos hlr]
      have hdiv : (right - left).tdiv 2 = (right - left) / 2 :=
        Int.tdiv_eq_ediv (by omega) (by omega)
      simp only [hdiv]
      have hm0 : 0 ≤ left + (right - left) / 2 := by omega
      have hm1 : left ≤ left + (right - left) / 2 := by omega
      have hm2 : left + (right - left) / 2 ≤ right := by omega
      rw [if_neg (by omega)]
      have hmn : (left + (right - left) / 2).toNat < v.length := by omega
      rw [List.getElem?_eq_getElem hmn]
      simp only
      by_cases hb : v[(left + (right - left) / 2).toNat].title = title
      · rw [if_pos hb]
        congr 1
        exact ((linearSearchLoop_iff title v).2 ⟨_, List.getElem_mem _, hb⟩).symm
      · rw [if_neg hb]
        have hne : v[(left + (right - left) / 2).toNat].title.data ≠ title.data := by
          intro hd
          exact hb (String.ext hd)
        by_cases hlt : v[(left + (right - left) / 2).toNat].title.data < title.data
        · rw [if_pos hlt]
          apply ih _ _ (by omega) hr (by omega) (by omega)
          intro i hi hti
          have h1 := hinv i hi hti
          refine ⟨?_, h1.2⟩
          by_contra hcon
          have hile : i ≤ (left + (right - left) / 2).toNat := by omega
          rcases Nat.lt_or_eq_of_le hile with hlt2 | heq
          · have := (List.pairwise_iff_getElem.1 hsorted) i _ hi hmn hlt2
            rw [hti] at this
            exact this hlt
          · subst heq
            exact hb hti
        · rw [if_neg hlt]
          apply ih _ _ h0 (by omega) (by omega) (by omega)
          intro i hi hti
          have h1 := hinv i hi hti
          refine ⟨h1.1, ?_⟩
          by_contra hcon
          have hile : (left + (right - left) / 2).toNat ≤ i := by omega
          rcases Nat.lt_or_eq_of_le hile with hlt2 | heq
          · have := (List.pairwise_iff_getElem.1 hsorted) _ i hmn hi hlt2
            rw [hti] at this
            rcases lt_trichotomy v[(left + (right - left) / 2).toNat].title.data title.data
              with h3 | h3 | h3
            · exact hlt h3
            · exact hne h3
            · exact this h3
          · apply hb
            rw [← hti]
            simp only [heq]
    · rw [if_neg hlr]
      congr 1
      symm
      rw [Bool.eq_false_iff]
      intro hfound
      obtain ⟨b, hb, hb2⟩ := (linearSearchLoop_iff title v).1 hfound
      obtain ⟨i, hi, rfl⟩ := List.getElem_of_mem hb
      have := hinv i hi hb2
      omega

theorem binarySearch_eq_linearSearch (sort : List Book → List Book) (hsort : SortsByTitle sort)
    (s : Library) (title : String) :
    binarySearch sort s title = some (linearSearch s title) := by
  unfold binarySearch linearSearch
  by_cases he : s.allBooks = []
  · simp [he, linearSearchLoop]
  · rw [if_neg he]
    have hlen : 0 < (sort s.allBooks).length := by
      rw [(hsort s.allBooks).1.length_eq]
      exact List.length_pos.2 he
    simp only
    rw [binarySearchLoop_spec (sort s.allBooks) title (hsort s.allBooks).2 _ 0 _ (le_refl 0)
      (by omega) (by omega) (by push_cast; omega) (fun i hi _ => by omega)]
    rw [linearSearchLoop_perm title (hsort s.allBooks).1]

theorem titleSort_sorts : SortsByTitle titleSort := by
  intro l
  refine ⟨List.mergeSort_perm l _, ?_⟩
  have h := @List.sorted_mergeSort Book (fun a b => decide (a.title.data ≤ b.title.data))
    (fun a b c hab hbc => by
      simp only [decide_eq_true_eq] at *
      exact le_trans hab hbc)
    (fun a b => by
      simp only [Bool.or_eq_true, decide_eq_true_eq]
      exact le_total _ _) l
  refine h.imp ?_
  intro a b hab
  simp only [decide_eq_true_eq] at hab
  exact not_lt.2 hab

/-- C5. After any sequence of `addBook` calls on any library (none at all and an empty
catalogue included, duplicate titles allowed) and for every title, `binarySearch` returns, and
returns what `linearSearch` returns, whatever order `std::sort` gives to books of equal
title. -/
theorem linear_binary_agree (sort : List Book → List Book) (hsort : SortsByTitle sort)
    (s : Library) (calls : List AddCall) (title : String) :
    binarySearch sort (addAll s calls) title = some (linearSearch (addAll s calls) title) :=
  binarySearch_eq_linearSearch sort hsort (addAll s calls) title

/-- C5, on a catalogue with a duplicate title, for a title that is present and one that is
not. -/
theorem linear_binary_agree_witness :
    (binarySearch titleSort
        (addAll fresh [⟨"B", "", "", "", 1, 1⟩, ⟨"A", "", "", "", 2, 1⟩, ⟨"B", "", "", "", 3, 0⟩])
        "B"
      = some (linearSearch
        (addAll fresh [⟨"B", "", "", "", 1, 1⟩, ⟨"A", "", "", "", 2, 1⟩, ⟨"B", "", "", "", 3, 0⟩])
        "B")) ∧
    linearSearch
        (addAll fresh [⟨"B", "", "", "", 1, 1⟩, ⟨"A", "", "", "", 2, 1⟩, ⟨"B", "", "", "", 3, 0⟩])
        "B" = true ∧
    linearSearch
        (addAll fresh [⟨"B", "", "", "", 1, 1⟩, ⟨"A", "", "", "", 2, 1⟩, ⟨"B", "", "", "", 3, 0⟩])
        "C" = false :=
  ⟨linear_binary_agree titleSort titleSort_sorts fresh _ "B", by decide, by decide⟩

/-! ## Sorting -/

theorem swapAt_length (v : List Book) (i j : Nat) : (swapAt v i j).length = v.length := by
  unfold swapAt
  split <;> simp

theorem swapAt_eq (v : List Book) (i j : Nat) (hi : i < v.length) (hj : j < v.length) :
    swapAt v i j = (v.set i v[j]).set j v[i] := by
  simp [swapAt, List.getElem?_eq_getElem hi, List.getElem?_eq_getElem hj]

theorem swapAt_getElem? (v : List Book) (i j k : Nat) (hi : i < v.length) (hj : j < v.length) :
    (swapAt v i j)[k]? = if k = j then v[i]? else if k = i then v[j]? else v[k]? := by
  rw [swapAt_eq v i j hi hj]
  simp only [List.getElem?_set, List.length_set]
  by_cases h1 : j = k
  · subst h1
    simp [hj, List.getElem?_eq_getElem hi]
  · by_cases h2 : i = k
    · subst h2
      simp [h1, hi, List.getElem?_eq_getElem hj, Ne.symm h1]
    · simp [h1, h2, Ne.symm h1, Ne.symm h2]

theorem set_same (v : List Book) (i : Nat) (hi : i < v.length) : v.set i v[i] = v := by
  apply List.ext_getElem?
  intro k
  rw [List.getElem?_set]
  by_cases h : i = k
  · subst h
    simp [hi, List.getElem?_eq_getElem hi]
  · simp [h]

theorem swapAt_perm (v : List Book) (i j : Nat) : (swapAt v i j).Perm v := by
  by_cases hi : i < v.length
  · by_cases hj : j < v.length
    · rw [swapAt_eq v i j hi hj]
      by_cases hij : i = j
      · subst hij
        rw [List.set_set, set_same v i hi]
      · rw [List.perm_iff_count]
        intro x
        have hj2 : j < (v.set i v[j]).length := by simpa using hj
        rw [List.count_set _ _ _ _ hj2, List.count_set _ _ _ _ hi]
        have h1 : (v.set i v[j])[j] = v[j] := by
          rw [List.getElem_set]
          simp [hij]
        rw [h1]
        have h2 : v[i] = x → 0 < v.count x := fun h =>
          List.count_pos_iff.2 (h ▸ List.getElem_mem hi)
        by_cases hx : v[i] = x
        · have := h2 hx
          by_cases hy : v[j] = x
          · simp [hx, hy]; omega
          · simp [hx, hy]; omega
        · by_cases hy : v[j] = x
          · simp [hx, hy]
          · simp [hx, hy]
    · simp [swapAt, List.getElem?_eq_none (Nat.le_of_not_lt hj)]
  · simp [swapAt, List.getElem?_eq_none (Nat.le_of_not_lt hi)]

theorem keyAt_swapAt (v : List Book) (i j k : Nat) (hi : i < v.length) (hj : j < v.length) :
    keyAt (swapAt v i j) k = if k = j then keyAt v i else if k = i then keyAt v j else keyAt v k := by
  unfold keyAt
  rw [swapAt_getElem? v i j k hi hj]
  split_ifs <;> rfl

theorem keyAt_of_lt (v : List Book) (k : Nat) (hk : k < v.length) :
    keyAt v k = v[k].title.data := by
  simp [keyAt, List.getElem?_eq_getElem hk]

theorem pairwise_of_keyAt (v : List Book)
    (h : ∀ p q, p < q → q < v.length → keyAt v p ≤ keyAt v q) :
    v.Pairwise (fun a b => a.title.data ≤ b.title.data) := by
  rw [List.pairwise_iff_getElem]
  intro i j hi hj hij
  have := h i j hij hj
  rwa [keyAt_of_lt v i hi, keyAt_of_lt v j hj] at this

theorem foldl_range_inv {σ : Type} (f : σ → Nat → σ) (P : Nat → σ → Prop) (init : σ) (n : Nat)
    (h0 : P 0 init) (hstep : ∀ k s, k < n → P k s → P (k + 1) (f s k)) :
    P n ((List.range n).foldl f init) := by
  induction n with
  | zero => simpa using h0
  | succ n ih =>
    rw [List.range_succ, List.foldl_append]
    exact hstep n _ (Nat.lt_succ_self n) (ih (fun k s hk hp => hstep k s (Nat.lt_succ_of_lt hk) hp))

theorem foldl_range'_inv {σ : Type} (f : σ → Nat → σ) (P : Nat → σ → Prop) (init : σ)
    (start n : Nat) (h0 : P 0 init)
    (hstep : ∀ k s, k < n → P k s → P (k + 1) (f s (start + k))) :
    P n ((List.range' start n).foldl f init) := by
  induction n with
  | zero => simpa using h0
  | succ n ih =>
    rw [List.range'_concat, List.foldl_append]
    have := hstep n _ (Nat.lt_succ_self n)
      (ih (fun k s hk hp => hstep k s (Nat.lt_succ_of_lt hk) hp))
    simpa using this

theorem bubbleStep_eq (w : List Book) (j : Nat) (hj : j + 1 < w.length) :
    bubbleStep w j = if keyAt w (j + 1) < keyAt w j then swapAt w j (j + 1) else w := by
  have hj0 : j < w.length := by omega
  simp [bubbleStep, keyAt, List.getElem?_eq_getElem hj, List.getElem?_eq_getElem hj0]

theorem bubbleStep_inv (orig : List Book) (n i j : Nat) (w : List Book) (hj : j + 1 < n - i)
    (hw : BubbleInv orig n i w) (hc : ∀ p, p < j → keyAt w p ≤ keyAt w j) :
    BubbleInv orig n i (bubbleStep w j) ∧
      ∀ p, p < j + 1 → keyAt (bubbleStep w j) p ≤ keyAt (bubbleStep w j) (j + 1) := by
  obtain ⟨hlen, hperm, hA, hB⟩ := hw
  have hj1 : j + 1 < w.length := by omega
  have hj0 : j < w.length := by omega
  rw [bubbleStep_eq w j hj1]
  by_cases hlt : keyAt w (j + 1) < keyAt w j
  · rw [if_pos hlt]
    refine ⟨⟨by rw [swapAt_length]; exact hlen, (swapAt_perm w j (j + 1)).trans hperm, ?_, ?_⟩, ?_⟩
    · intro p q h1 h2 h3
      rw [keyAt_swapAt w j (j + 1) p hj0 hj1, keyAt_swapAt w j (j + 1) q hj0 hj1]
      rw [if_neg (by omega), if_neg (by omega), if_neg (by omega), if_neg (by omega)]
      exact hA p q h1 h2 h3
    · intro p q h1 h2 h3
      rw [keyAt_swapAt w j (j + 1) p hj0 hj1, keyAt_swapAt w j (j + 1) q hj0 hj1]
      rw [if_neg (show ¬ q = j + 1 by omega), if_neg (show ¬ q = j by omega)]
      split_ifs
      · exact hB j q (by omega) h2 h3
      · exact hB (j + 1) q (by omega) h2 h3
      · exact hB p q h1 h2 h3
    · intro p hp
      rw [keyAt_swapAt w j (j + 1) p hj0 hj1, keyAt_swapAt w j (j + 1) (j + 1) hj0 hj1]
      rw [if_pos rfl, if_neg (show ¬ p = j + 1 by omega)]
      split_ifs with hpj
      · exact le_of_lt hlt
      · exact hc p (by omega)
  · rw [if_neg hlt]
    refine ⟨⟨hlen, hperm, hA, hB⟩, ?_⟩
    intro p hp
    have hle : keyAt w j ≤ keyAt w (j + 1) := not_lt.1 hlt
    by_cases hpj : p = j
    · subst hpj; exact hle
    · exact le_trans (hc p (by omega)) hle

theorem bubblePass_inv (orig : List Book) (n i : Nat) (w : List Book) (hi : i + 1 < n)
    (hw : BubbleInv orig n i w) : BubbleInv orig n (i + 1) (bubblePass w i) := by
  have hlen : w.length = n := hw.1
  unfold bubblePass
  rw [hlen]
  have key := foldl_range_inv bubbleStep
    (fun j x => BubbleInv orig n i x ∧ ∀ p, p < j → keyAt x p ≤ keyAt x j) w (n - i - 1)
    ⟨hw, fun p hp => absurd hp (Nat.not_lt_zero p)⟩
    (fun k x hk hx => bubbleStep_inv orig n i k x (by omega) hx.1 hx.2)
  obtain ⟨⟨hl, hperm, hA, hB⟩, hC⟩ := key
  refine ⟨hl, hperm, ?_, ?_⟩
  · intro p q h1 h2 h3
    by_cases hp : p = n - i - 1
    · subst hp
      exact hB _ q (by omega) (by omega) h3
    · exact hA p q (by omega) h2 h3
  · intro p q h1 h2 h3
    by_cases hq : q = n - i - 1
    · subst hq
      exact hC p (by omega)
    · exact hB p q (by omega) (by omega) h3

theorem bubbleLoop_inv (v : List Book) :
    BubbleInv v v.length (v.length - 1) (bubbleLoop v) := by
  unfold bubbleLoop
  refine foldl_range_inv bubblePass (fun i x => BubbleInv v v.length i x) v (v.length - 1) ?_ ?_
  · exact ⟨rfl, List.Perm.refl v, fun p q h1 h2 h3 => by omega, fun p q h1 h2 h3 => by omega⟩
  · intro k x hk hx
    exact bubblePass_inv v v.length k x (by omega) hx

theorem bubbleLoop_sorted (v : List Book) :
    (bubbleLoop v).Perm v ∧ (bubbleLoop v).Pairwise (fun a b => a.title.data ≤ b.title.data) := by
  obtain ⟨hl, hperm, hA, hB⟩ := bubbleLoop_inv v
  refine ⟨hperm, pairwise_of_keyAt _ ?_⟩
  intro p q hpq hq
  rw [hl] at hq
  by_cases hp : v.length - (v.length - 1) ≤ p
  · exact hA p q hp hpq hq
  · exact hB p q (by omega) (by omega) hq

theorem selectStep_eq (w : List Book) (mi j : Nat) (hmi : mi < w.length) (hj : j < w.length) :
    selectStep w mi j = if keyAt w j < keyAt w mi then j else mi := by
  simp [selectStep, keyAt, List.getElem?_eq_getElem hj, List.getElem?_eq_getElem hmi]

theorem selectStep_inv (w : List Book) (i k mi : Nat) (hk : i + 1 + k < w.length)
    (h : i ≤ mi ∧ mi ≤ i + k ∧ ∀ q, i ≤ q → q ≤ i + k → keyAt w mi ≤ keyAt w q) :
    i ≤ selectStep w mi (i + 1 + k) ∧ selectStep w mi (i + 1 + k) ≤ i + (k + 1) ∧
      ∀ q, i ≤ q → q ≤ i + (k + 1) →
        keyAt w (selectStep w mi (i + 1 + k)) ≤ keyAt w q := by
  obtain ⟨h1, h2, h3⟩ := h
  rw [selectStep_eq w mi (i + 1 + k) (by omega) hk]
  by_cases hlt : keyAt w (i + 1 + k) < keyAt w mi
  · rw [if_pos hlt]
    refine ⟨by omega, by omega, ?_⟩
    intro q hq1 hq2
    by_cases hq : q = i + 1 + k
    · subst hq; exact le_refl _
    · exact le_trans (le_of_lt hlt) (h3 q hq1 (by omega))
  · rw [if_neg hlt]
    refine ⟨h1, by omega, ?_⟩
    intro q hq1 hq2
    by_cases hq : q = i + 1 + k
    · subst hq; exact not_lt.1 hlt
    · exact h3 q hq1 (by omega)

theorem selectionPass_inv (orig : List Book) (n i : Nat) (w : List Book) (hi : i + 1 < n)
    (hw : SelectInv orig n i w) : SelectInv orig n (i + 1) (selectionPass w i) := by
  obtain ⟨hlen, hperm, hA, hB⟩ := hw
  unfold selectionPass
  have key := foldl_range'_inv (selectStep w)
    (fun k mi => i ≤ mi ∧ mi ≤ i + k ∧ ∀ q, i ≤ q → q ≤ i + k → keyAt w mi ≤ keyAt w q)
    i (i + 1) (w.length - (i + 1))
    ⟨le_refl i, le_refl i, fun q h1 h2 => by
      have : q = i := by omega
      subst this; exact le_refl _⟩
    (fun k mi hk hx => selectStep_inv w i k mi (by omega) hx)
  simp only
  generalize (List.range' (i + 1) (w.length - (i + 1))).foldl (selectStep w) i = m at key
  obtain ⟨hm1, hm2, hm3⟩ := key
  have hiw : i < w.length := by omega
  have hmw : m < w.length := by omega
  refine ⟨by rw [swapAt_length]; exact hlen, (swapAt_perm w i m).trans hperm, ?_, ?_⟩
  · intro p q h1 h2
    rw [keyAt_swapAt w i m p hiw hmw, keyAt_swapAt w i m q hiw hmw]
    by_cases hq : q = i
    · subst hq
      by_cases hqm : q = m
      · subst hqm
        rw [if_pos rfl, if_neg (by omega), if_neg (by omega)]
        exact hB p q h1 (le_refl q) (by omega)
      · rw [if_neg hqm, if_pos rfl, if_neg (by omega), if_neg (by omega)]
        exact hB p m h1 hm1 (by omega)
    · rw [if_neg (show ¬ q = m by omega), if_neg hq, if_neg (show ¬ p = m by omega),
        if_neg (show ¬ p = i by omega)]
      exact hA p q h1 (by omega)
  · intro p q h1 h2 h3
    rw [keyAt_swapAt w i m p hiw hmw, keyAt_swapAt w i m q hiw hmw]
    have hmin : ∀ x, i ≤ x → x < n → keyAt w m ≤ keyAt w x := fun x hx1 hx2 =>
      hm3 x hx1 (by omega)
    by_cases hp : p = i
    · subst hp
      by_cases hpm : p = m
      · subst hpm
        rw [if_pos rfl, if_neg (show ¬ q = p by omega), if_neg (show ¬ q = p by omega)]
        exact hmin q (by omega) h3
      · rw [if_neg hpm, if_pos rfl]
        split_ifs
        · exact hmin p (le_refl p) (by omega)
        · exact le_refl _
        · exact hmin q (by omega) h3
    · rw [if_neg (show ¬ p = m by omega), if_neg hp, if_neg (show ¬ q = i by omega)]
      split_ifs
      · exact hB p i (by omega) (le_refl i) (by omega)
      · exact hB p q (by omega) (by omega) h3

theorem selectionLoop_inv (v : List Book) :
    SelectInv v v.length (v.length - 1) (selectionLoop v) := by
  unfold selectionLoop
  refine foldl_range_inv selectionPass (fun i x => SelectInv v v.length i x) v
    (v.length - 1) ?_ ?_
  · exact ⟨rfl, List.Perm.refl v, fun p q h1 h2 => by omega, fun p q h1 h2 h3 => by omega⟩
  · intro k x hk hx
    exact selectionPass_inv v v.length k x (by omega) hx

theorem selectionLoop_sorted (v : List Book) :
    (selectionLoop v).Perm v ∧
      (selectionLoop v).Pairwise (fun a b => a.title.data ≤ b.title.data) := by
  obtain ⟨hl, hperm, hA, hB⟩ := selectionLoop_inv v
  refine ⟨hperm, pairwise_of_keyAt _ ?_⟩
  intro p q hpq hq
  rw [hl] at hq
  by_cases hq2 : q < v.length - 1
  · exact hA p q hpq hq2
  · exact hB p q (by omega) (by omega) hq

theorem titles_eq_of_sorted_perm (bs ss : List Book) (h : bs.Perm ss)
    (hb : bs.Pairwise (fun a b => a.title.data ≤ b.title.data))
    (hs : ss.Pairwise (fun a b => a.title.data ≤ b.title.data)) :
    bs.map Book.title = ss.map Book.title := by
  have hperm : (bs.map (fun b => b.title.data)).Perm (ss.map (fun b => b.title.data)) :=
    h.map _
  have h1 : (bs.map (fun b => b.title.data)).Sorted (· ≤ ·) := List.pairwise_map.2 hb
  have h2 : (ss.map (fun b => b.title.data)).Sorted (· ≤ ·) := List.pairwise_map.2 hs
  have heq := List.eq_of_perm_of_sorted hperm h1 h2
  have hinj : Function.Injective String.data := fun a b hab => String.ext hab
  apply List.map_injective_iff.2 hinj
  simpa [List.map_map] using heq

/-- C8. On a catalogue that is not empty, `bubbleSort` and `selectionSort` each display a
rearrangement of the books of the vector in non-decreasing order of title, and the two
displayed sequences have the same sequence of titles. -/
theorem sorts_agree (s : Library) (h : s.allBooks ≠ []) :
    ∃ bs ss, bubbleSort s = some bs ∧ selectionSort s = some ss ∧
      bs.Perm s.allBooks ∧ ss.Perm s.allBooks ∧
      bs.Pairwise (fun a b => a.title.data ≤ b.title.data) ∧
      ss.Pairwise (fun a b => a.title.data ≤ b.title.data) ∧
      bs.map Book.title = ss.map Book.title := by
  obtain ⟨hb1, hb2⟩ := bubbleLoop_sorted s.allBooks
  obtain ⟨hs1, hs2⟩ := selectionLoop_sorted s.allBooks
  exact ⟨bubbleLoop s.allBooks, selectionLoop s.allBooks, by simp [bubbleSort, h],
    by simp [selectionSort, h], hb1, hs1, hb2, hs2,
    titles_eq_of_sorted_perm _ _ (hb1.trans hs1.symm) hb2 hs2⟩

/-- C8, on the seeded library with two more books, one of them a second "Mathematics": both
sorts display the five titles in order. -/
theorem sorts_agree_witness :
    (bubbleSort fiveBooks).map (fun l => l.map Book.title)
      = some ["C++ Programming", "Data Structures", "Mathematics", "Mathematics", "Zebra"] ∧
    (selectionSort fiveBooks).map (fun l => l.map Book.title)
      = some ["C++ Programming", "Data Structures", "Mathematics", "Mathematics", "Zebra"] ∧
    ∃ bs ss, bubbleSort fiveBooks = some bs ∧ selectionSort fiveBooks = some ss ∧
      bs.Perm fiveBooks.allBooks ∧ ss.Perm fiveBooks.allBooks ∧
      bs.Pairwise (fun a b => a.title.data ≤ b.title.data) ∧
      ss.Pairwise (fun a b => a.title.data ≤ b.title.data) ∧
      bs.map Book.title = ss.map Book.title :=
  ⟨by decide, by decide, sorts_agree fiveBooks (by decide)⟩

/-! ## Saving and loading -/

theorem digitChar_facts : ∀ d, d < 10 →
    (digitChar d).isDigit = true ∧ (digitChar d).toNat - 48 = d := by
  decide

theorem isDigit_ne {c : Char} (h : c.isDigit = true) :
    c ≠ '|' ∧ c ≠ '\n' ∧ c ≠ '-' ∧ c ≠ '+' ∧ isSpace c = false := by
  refine ⟨?_, ?_, ?_, ?_, ?_⟩
  · rintro rfl; revert h; decide
  · rintro rfl; revert h; decide
  · rintro rfl; revert h; decide
  · rintro rfl; revert h; decide
  · simp only [isSpace, Bool.or_eq_false_iff, decide_eq_false_iff_not]
    refine ⟨⟨⟨⟨⟨?_, ?_⟩, ?_⟩, ?_⟩, ?_⟩, ?_⟩ <;> (rintro rfl; revert h; decide)

theorem showNatAux_spec : ∀ (fuel n : Nat) (acc : List Char), n < fuel →
    ∃ ds, showNatAux fuel n acc = ds ++ acc ∧ ds ≠ [] ∧ (∀ c ∈ ds, c.isDigit = true) ∧
      digitsValue ds 0 = n := by
  intro fuel
  induction fuel with
  | zero => intro n acc h; omega
  | succ fuel ih =>
    intro n acc h
    rw [showNatAux]
    by_cases hn : n < 10
    · rw [if_pos hn]
      refine ⟨[digitChar n], rfl, by simp, ?_, ?_⟩
      · intro c hc
        rw [List.mem_singleton] at hc
        rw [hc]
        exact (digitChar_facts n hn).1
      · simp [digitsValue, (digitChar_facts n hn).2]
    · rw [if_neg hn]
      obtain ⟨ds, h1, h2, h3, h4⟩ := ih (n / 10) (digitChar (n % 10) :: acc) (by omega)
      have hd := digitChar_facts (n % 10) (Nat.mod_lt n (by decide))
      refine ⟨ds ++ [digitChar (n % 10)], by simp [h1], by simp, ?_, ?_⟩
      · intro c hc
        rcases List.mem_append.1 hc with hc | hc
        · exact h3 c hc
        · rw [List.mem_singleton] at hc
          rw [hc]
          exact hd.1
      · unfold digitsValue at h4 ⊢
        rw [List.foldl_append, h4]
        simp only [List.foldl_cons, List.foldl_nil, hd.2]
        omega

theorem showNat_spec (n : Nat) :
    showNat n ≠ [] ∧ (∀ c ∈ showNat n, c.isDigit = true) ∧ digitsValue (showNat n) 0 = n := by
  obtain ⟨ds, h1, h2, h3, h4⟩ := showNatAux_spec (n + 1) n [] (Nat.lt_succ_self n)
  rw [List.append_nil] at h1
  unfold showNat
  rw [h1]
  exact ⟨h2, h3, h4⟩

theorem readDigits_append (ds rest : List Char) (acc : Nat) (hds : ∀ c ∈ ds, c.isDigit = true)
    (hrest : ∀ c ∈ rest.head?, c.isDigit = false) :
    readDigits (ds ++ rest) acc = (digitsValue ds acc, rest) := by
  induction ds generalizing acc with
  | nil =>
    cases rest with
    | nil => rfl
    | cons c cs =>
      have : c.isDigit = false := hrest c (by simp)
      simp [readDigits, this, digitsValue]
  | cons d ds ih =>
    have hd : d.isDigit = true := hds d (List.mem_cons_self _ _)
    rw [List.cons_append, readDigits, if_pos hd, ih _ (fun c hc => hds c (List.mem_cons_of_mem _ hc))]
    rfl

theorem scanDigits_showNat (n : Nat) (rest : List Char)
    (hrest : ∀ c ∈ rest.head?, c.isDigit = false) :
    scanDigits (showNat n ++ rest) = some (n, rest) := by
  obtain ⟨h1, h2, h3⟩ := showNat_spec n
  have hread := readDigits_append (showNat n) rest 0 h2 hrest
  rw [h3] at hread
  cases hs : showNat n with
  | nil => exact absurd hs h1
  | cons c cs =>
    rw [hs] at hread h2
    have hc : c.isDigit = true := h2 c (List.mem_cons_self _ _)
    rw [List.cons_append] at hread ⊢
    rw [scanDigits, if_pos hc, hread]

theorem showInt_head (n : Int) :
    ∃ c cs, showInt n = c :: cs ∧ isSpace c = false ∧ c ≠ '|' ∧ c ≠ '\n' := by
  cases n with
  | ofNat k =>
    obtain ⟨h1, h2, _⟩ := showNat_spec k
    cases hs : showNat k with
    | nil => exact absurd hs h1
    | cons c cs =>
      rw [hs] at h2
      have hc := isDigit_ne (h2 c (List.mem_cons_self _ _))
      exact ⟨c, cs, by simp [showInt, hs], hc.2.2.2.2, hc.1, hc.2.1⟩
  | negSucc k => exact ⟨'-', showNat (k + 1), rfl, by decide, by decide, by decide⟩

theorem scanInt_showInt (n : Int) (rest : List Char)
    (hrest : ∀ c ∈ rest.head?, c.isDigit = false) :
    scanInt (showInt n ++ rest) = some (n, rest) := by
  cases n with
  | ofNat k =>
    obtain ⟨h1, h2, _⟩ := showNat_spec k
    have hscan := scanDigits_showNat k rest hrest
    simp only [showInt]
    cases hs : showNat k with
    | nil => exact absurd hs h1
    | cons c cs =>
      rw [hs] at h2 hscan
      have hc := isDigit_ne (h2 c (List.mem_cons_self _ _))
      rw [List.cons_append] at hscan ⊢
      rw [scanInt, if_neg hc.2.2.1, if_neg hc.2.2.2.1, hscan]
      rfl
  | negSucc k =>
    simp only [showInt, List.cons_append]
    rw [scanInt, if_pos rfl, scanDigits_showNat (k + 1) rest hrest]
    rfl

theorem stoi_showInt (n : Int) (h : isInt n) : stoi (showInt n) = some n := by
  obtain ⟨c, cs, hs, hsp, _, _⟩ := showInt_head n
  have hscan := scanInt_showInt n [] (by simp)
  rw [List.append_nil] at hscan
  unfold stoi
  rw [hs, List.dropWhile_cons, hsp]
  simp only [Bool.false_eq_true, if_false]
  rw [← hs, hscan]
  simp only
  exact if_pos h

theorem showInt_chars (n : Int) : '|' ∉ showInt n ∧ '\n' ∉ showInt n := by
  have hnat : ∀ k : Nat, '|' ∉ showNat k ∧ '\n' ∉ showNat k := by
    intro k
    obtain ⟨_, h2, _⟩ := showNat_spec k
    exact ⟨fun h => (isDigit_ne (h2 _ h)).1 rfl, fun h => (isDigit_ne (h2 _ h)).2.1 rfl⟩
  cases n with
  | ofNat k => exact hnat k
  | negSucc k =>
    simp only [showInt, List.mem_cons, not_or]
    exact ⟨⟨by decide, (hnat (k + 1)).1⟩, ⟨by decide, (hnat (k + 1)).2⟩⟩

theorem showBool_chars (b : Bool) :
    '|' ∉ showBool b ∧ '\n' ∉ showBool b ∧ showBool b ≠ [] ∧
      decide (showBool b = ['1']) = b := by
  cases b <;> decide

theorem splitFrom_field (f rest cur : List Char) (hf : '|' ∉ f) :
    splitFrom (f ++ '|' :: rest) cur = (cur ++ f) :: splitFrom rest [] := by
  induction f generalizing cur with
  | nil => simp [splitFrom]
  | cons c cs ih =>
    have hc : c ≠ '|' := fun h => hf (by simp [h])
    have hcs : '|' ∉ cs := fun h => hf (List.mem_cons_of_mem _ h)
    rw [List.cons_append, splitFrom, if_neg hc, ih _ hcs]
    simp

theorem splitFrom_last (f cur : List Char) (hf : '|' ∉ f) (hne : cur ++ f ≠ []) :
    splitFrom f cur = [cur ++ f] := by
  induction f generalizing cur with
  | nil =>
    rw [List.append_nil] at hne
    simp [splitFrom, hne]
  | cons c cs ih =>
    have hc : c ≠ '|' := fun h => hf (by simp [h])
    have hcs : '|' ∉ cs := fun h => hf (List.mem_cons_of_mem _ h)
    rw [splitFrom, if_neg hc, ih _ hcs (by simp)]
    simp

theorem splitParts_recordText (b : Book) (hb : b.clean) :
    splitParts (recordText b) =
      [b.title.data, b.author.data, b.isbn.data, b.category.data, showInt b.year,
        showInt b.totalCopies, showInt b.availableCopies, showBool b.isAvailable] := by
  obtain ⟨h1, h2, h3, h4⟩ := hb
  unfold splitParts recordText
  rw [splitFrom_field _ _ _ h1.1, splitFrom_field _ _ _ h2.1, splitFrom_field _ _ _ h3.1,
    splitFrom_field _ _ _ h4.1, splitFrom_field _ _ _ (showInt_chars _).1,
    splitFrom_field _ _ _ (showInt_chars _).1, splitFrom_field _ _ _ (showInt_chars _).1,
    splitFrom_last _ _ (showBool_chars _).1 (by simpa using (showBool_chars _).2.2.1)]
  simp

theorem upTo_line (body rest : List Char) (h : '\n' ∉ body) :
    upTo '\n' (body ++ '\n' :: rest) = (body, rest) := by
  induction body with
  | nil => simp [upTo]
  | cons c cs ih =>
    have hc : c ≠ '\n' := fun hc => h (by simp [hc])
    have hcs : '\n' ∉ cs := fun hcs => h (List.mem_cons_of_mem _ hcs)
    rw [List.cons_append, upTo, if_neg hc, ih hcs]

theorem recordText_no_newline (b : Book) (hb : b.clean) : '\n' ∉ recordText b := by
  obtain ⟨h1, h2, h3, h4⟩ := hb
  unfold recordText
  simp only [List.mem_append, List.mem_cons, not_or]
  have hbar : '\n' ≠ '|' := by decide
  exact ⟨h1.2, hbar, h2.2, hbar, h3.2, hbar, h4.2, hbar, (showInt_chars _).2, hbar,
    (showInt_chars _).2, hbar, (showInt_chars _).2, hbar, (showBool_chars _).2.1⟩

theorem getline_bookLine (b : Book) (hb : b.clean) (rest : List Char) :
    IStream.getline { buf := bookLine b ++ rest, fail := false } =
      (recordText b, { buf := rest, fail := false }) := by
  have hup := upTo_line (recordText b) rest (recordText_no_newline b hb)
  have hbuf : bookLine b ++ rest = recordText b ++ '\n' :: rest := by
    simp [bookLine]
  rw [hbuf]
  cases hcase : recordText b ++ '\n' :: rest with
  | nil => simp at hcase
  | cons c cs =>
    rw [hcase] at hup
    simp only [IStream.getline, Bool.false_eq_true, if_false, hup]

theorem loadLoop_lines (bs : List Book) (s : Library)
    (hbs : ∀ b ∈ bs, b.clean ∧ b.wellTyped) :
    loadLoop bs.length { buf := (bs.map bookLine).flatten, fail := false } s =
      some (bs.foldl loadRecord s) := by
  induction bs generalizing s with
  | nil => rfl
  | cons b tl ih =>
    obtain ⟨hclean, hy, ht, ha⟩ := hbs b (List.mem_cons_self _ _)
    have hg := getline_bookLine b hclean ((tl.map bookLine).flatten)
    simp only [List.map_cons, List.flatten_cons, List.length_cons, List.foldl_cons]
    rw [loadLoop, hg]
    simp only [splitParts_recordText b hclean, stoi_showInt _ hy, stoi_showInt _ ht,
      stoi_showInt _ ha, (showBool_chars b.isAvailable).2.2.2]
    rw [ih _ (fun x hx => hbs x (List.mem_cons_of_mem _ hx))]
    rfl

theorem foldl_loadRecord (bs : List Book) (s : Library) :
    bs.foldl loadRecord s =
      { s with
        head := s.head ++ bs,
        root := bs.foldl insertTree s.root,
        allBooks := s.allBooks ++ bs } := by
  induction bs generalizing s with
  | nil => simp
  | cons b tl ih =>
    rw [List.foldl_cons, ih]
    simp [loadRecord]

theorem extractInt_count (n : Nat) (rest : List Char) (old : Int) (hn : (n : Int) ≤ INT_MAX) :
    extractInt { buf := showNat n ++ '\n' :: rest, fail := false } old =
      ((n : Int), { buf := '\n' :: rest, fail := false }) := by
  obtain ⟨c, cs, hs, hsp, _, _⟩ := showInt_head (Int.ofNat n)
  have hscan := scanInt_showInt (Int.ofNat n) ('\n' :: rest) (by
    intro c hc
    simp only [List.head?_cons, Option.mem_def, Option.some.injEq] at hc
    subst hc
    decide)
  have hshow : showInt (Int.ofNat n) = showNat n := rfl
  rw [hshow] at hs hscan
  have hmin : ¬ ((n : Int) < INT_MIN) := by
    unfold INT_MIN; omega
  have hmax : ¬ ((n : Int) > INT_MAX) := not_lt.2 hn
  unfold extractInt
  simp only [Bool.false_eq_true, if_false]
  rw [hs, List.cons_append, List.dropWhile_cons, hsp]
  simp only [Bool.false_eq_true, if_false]
  rw [← List.cons_append, ← hs, hscan]
  simp only [Int.ofNat_eq_coe, if_neg hmax, if_neg hmin]

/-- C1. Saving and loading: when the file can be written, the string fields of the books of
the vector hold neither `'|'` nor a newline, and the counters and the number of books are C++
`int`s, a library constructed from the file that `saveToFile` wrote loads without an exception
and has, in its list and in its vector, exactly the books that were saved, in the same order
and with the same eight fields. -/
theorem save_load_roundtrip (s : Library) (canWrite : Bool) (bookCount0 : Int)
    (hw : s.writable = true) (hclean : ∀ b ∈ s.allBooks, b.clean)
    (htyped : ∀ b ∈ s.allBooks, b.wellTyped) (hcount : (s.allBooks.length : Int) ≤ INT_MAX) :
    (saveToFile s).disk = some (fileContents s.allBooks) ∧
    Library.create (saveToFile s).disk canWrite bookCount0 =
      some { head := s.allBooks,
             root := s.allBooks.foldl insertTree Tree.nil,
             deletedBooks := [],
             searchRequests := [],
             allBooks := s.allBooks,
             disk := some (fileContents s.allBooks),
             writable := canWrite } := by
  have hdisk := saveToFile_disk s hw
  refine ⟨hdisk, ?_⟩
  rw [hdisk]
  unfold Library.create loadFromFile
  simp only [Library.blank, fileContents]
  rw [extractInt_count _ _ _ hcount]
  simp only [IStream.ignore, Bool.false_eq_true, if_false, Int.toNat_ofNat]
  rw [loadLoop_lines _ _ (fun b hb => ⟨hclean b hb, htyped b hb⟩), foldl_loadRecord]
  simp

/-- C1, on a vector with an empty title, blanks, negative numbers and the two ends of the
range of `int`. -/
theorem save_load_roundtrip_witness :
    (saveToFile oddShelf).disk
      = some "2\n| a  b ||x|-5|0|-3|0\n 12||0-1||2147483647|-2147483648|7|1\n".data ∧
    ((saveToFile oddShelf).disk = some (fileContents oddShelf.allBooks) ∧
    Library.create (saveToFile oddShelf).disk false 0 =
      some { head := oddShelf.allBooks,
             root := oddShelf.allBooks.foldl insertTree Tree.nil,
             deletedBooks := [],
             searchRequests := [],
             allBooks := oddShelf.allBooks,
             disk := some (fileContents oddShelf.allBooks),
             writable := false }) :=
  ⟨by decide, save_load_roundtrip oddShelf false 0 (by decide) (by decide) (by decide)
    (by decide)⟩

/-! ## Deleting -/

theorem deleteLoop_eq_none (title : String) (l : List Book) (h : ∀ b ∈ l, b.title ≠ title) :
    deleteLoop title l = none := by
  induction l with
  | nil => rfl
  | cons a rest ih =>
    have ha : a.title ≠ title := h a (List.mem_cons_self _ _)
    rw [deleteLoop, if_neg ha, ih (fun b hb => h b (List.mem_cons_of_mem _ hb))]
    rfl

/-- C11. The postcondition of `deleteBook`: when some node of the list has the title, exactly
the first such node is removed, the other nodes keep their order and their fields, and the book
of the removed node, as it is at the call, goes on top of the stack `deletedBooks`; when no node
has the title, the whole state, list and stack included, is unchanged. -/
theorem deleteBook_post (s : Library) (title : String) :
    ((∃ b ∈ s.head, b.title = title) →
      ∃ pre d post, s.head = pre ++ d :: post ∧ (∀ x ∈ pre, x.title ≠ title) ∧ d.title = title ∧
        (deleteBook s title).2 = Outcome.deleted ∧
        (deleteBook s title).1.head = pre ++ post ∧
        (deleteBook s title).1.deletedBooks = d :: s.deletedBooks) ∧
    ((∀ b ∈ s.head, b.title ≠ title) →
      (deleteBook s title).1 = s ∧ (deleteBook s title).2 ≠ Outcome.deleted) := by
  constructor
  · intro h
    obtain ⟨pre, d, post, hl, hpre, hd, hloop⟩ := deleteLoop_found title s.head h
    have hne : s.head ≠ [] := by rw [hl]; simp
    exact ⟨pre, d, post, hl, hpre, hd, by simp [deleteBook, hne, hloop]⟩
  · intro h
    have hloop := deleteLoop_eq_none title s.head h
    unfold deleteBook
    by_cases he : s.head = []
    · simp [he]
    · simp [he, hloop]

/-- C11, on the one-book library with one copy lent (the book on the stack has 1 available
copy) and on the seeded library for a title it does not hold. -/
theorem deleteBook_post_witness :
    ((deleteBook partlyLent "A").1.head = [] ∧
      (deleteBook partlyLent "A").1.deletedBooks.map Book.availableCopies = [1]) ∧
    ((deleteBook seeded "Physics").1 = seeded ∧
      (deleteBook seeded "Physics").2 ≠ Outcome.deleted) ∧
    ∃ pre d post, partlyLent.head = pre ++ d :: post ∧ (∀ x ∈ pre, x.title ≠ "A") ∧
      d.title = "A" ∧
      (deleteBook partlyLent "A").2 = Outcome.deleted ∧
      (deleteBook partlyLent "A").1.head = pre ++ post ∧
      (deleteBook partlyLent "A").1.deletedBooks = d :: partlyLent.deletedBooks :=
  ⟨by decide, (deleteBook_post seeded "Physics").2 (by decide),
    (deleteBook_post partlyLent "A").1 (by decide)⟩

/-! ## Seeding and loading -/

/-- C17. Seeding: without a data file the constructor leaves exactly three books in the list,
"C++ Programming", "Data Structures" and "Mathematics" in this order, with 5, 3 and 2 copies,
all of them available and `isAvailable` set. -/
theorem seeding (canWrite : Bool) (bookCount0 : Int) :
    (Library.create none canWrite bookCount0).map (fun s => s.head) = some defaultBooks ∧
    defaultBooks.map (fun b => (b.title, b.totalCopies, b.availableCopies, b.isAvailable))
      = [("C++ Programming", 5, 5, true), ("Data Structures", 3, 3, true),
         ("Mathematics", 2, 2, true)] := by
  cases canWrite <;> exact ⟨rfl, by decide⟩

/-- C18 as stated fails: without a data file, and with a file that can be written, the
constructor returns with the file present, holding the three default books. -/
theorem seeding_writes_file :
    (Library.create none true 0).map (fun s => s.disk)
      = some (some ("3\nC++ Programming|Ahmed Ali|111111|Programming|2023|5|5|1\nData Structures|Sarah Mohamed|222222|Programming|2022|3|3|1\nMathematics|Dr. Sami|333333|Science|2021|2|2|1\n").data) ∧
    (Library.create none true 0).map (fun s => s.disk) ≠ some none := by
  decide

/-- C18, amended. Without a data file `loadFromFile` seeds through `addBook`, which saves: when
the file can be written the constructor returns with the file holding the three default books;
the file is still absent on return only when it cannot be opened for writing. -/
theorem seeding_disk (bookCount0 : Int) :
    (Library.create none true bookCount0).map (fun s => s.disk)
      = some (some (fileContents defaultBooks)) ∧
    (Library.create none false bookCount0).map (fun s => s.disk) = some none :=
  ⟨rfl, rfl⟩

/-- C19. `loadFromFile` can abort: on a file whose only record line has eight fields and the
year "soon", `stoi` throws and the constructor does not return a library. A line without
eight fields is skipped: of three lines with a seven-field line in the middle, the first and
the third are loaded. -/
theorem load_aborts_on_bad_number :
    Library.create (some badYearFile) true 0 = none ∧
    splitParts "A|X|1|Fiction|soon|2|2|1".data
      = ["A".data, "X".data, "1".data, "Fiction".data, "soon".data, "2".data, "2".data,
         "1".data] ∧
    stoi "soon".data = none ∧
    (Library.create (some shortLineFile) true 0).map (fun s => s.head.map Book.title)
      = some ["A", "C"] := by
  decide

/-! ## States reached by sequences of calls -/

theorem borrowLoop_some (title : String) (l l' : List Book) (h : borrowLoop title l = some l') :
    ∃ pre b post, l = pre ++ b :: post ∧ l' = pre ++ b.lend :: post ∧ b.title = title ∧
      0 < b.availableCopies := by
  have hex : ∃ b ∈ l, b.title = title ∧ b.availableCopies > 0 := by
    by_contra hcon
    have hall : ∀ b ∈ l, ¬ (b.title = title ∧ b.availableCopies > 0) :=
      fun b hb hb2 => hcon ⟨b, hb, hb2⟩
    rw [(borrowLoop_eq_none title l).2 hall] at h
    cases h
  obtain ⟨pre, b, post, hl, _, hb1, hb2, hloop⟩ := borrowLoop_found title l hex
  rw [hloop] at h
  exact ⟨pre, b, post, hl, (Option.some.inj h).symm, hb1, hb2⟩

theorem returnLoop_some (title : String) (l l' : List Book) (h : returnLoop title l = some l') :
    ∃ pre b post, l = pre ++ b :: post ∧ l' = pre ++ b.giveBack :: post ∧ b.title = title ∧
      ∀ x ∈ pre, x.title ≠ title := by
  induction l generalizing l' with
  | nil => simp [returnLoop] at h
  | cons a rest ih =>
    by_cases ha : a.title = title
    · rw [returnLoop, if_pos ha] at h
      exact ⟨[], a, rest, rfl, (Option.some.inj h).symm, ha, by simp⟩
    · rw [returnLoop, if_neg ha] at h
      cases hr : returnLoop title rest with
      | none => rw [hr] at h; cases h
      | some r =>
        rw [hr] at h
        obtain ⟨pre, b, post, hl, hl', hb, hpre⟩ := ih r hr
        refine ⟨a :: pre, b, post, by simp [hl], ?_, hb, ?_⟩
        · rw [← Option.some.inj h, hl']
          rfl
        · intro x hx
          rcases List.mem_cons.1 hx with rfl | hx
          · exact ha
          · exact hpre x hx

theorem deleteLoop_some (title : String) (l l' : List Book) (d : Book)
    (h : deleteLoop title l = some (d, l')) :
    ∃ pre post, l = pre ++ d :: post ∧ l' = pre ++ post ∧ d.title = title ∧
      ∀ x ∈ pre, x.title ≠ title := by
  by_cases hex : ∃ b ∈ l, b.title = title
  · obtain ⟨pre, d2, post, hl, hpre, hd, hloop⟩ := deleteLoop_found title l hex
    rw [hloop] at h
    have h2 := Option.some.inj h
    have hd2 : d2 = d := congrArg Prod.fst h2
    have hl2 : pre ++ post = l' := congrArg Prod.snd h2
    subst hd2
    exact ⟨pre, post, hl, hl2.symm, hd, hpre⟩
  · rw [deleteLoop_eq_none title l (fun b hb hb2 => hex ⟨b, hb, hb2⟩)] at h
    cases h

theorem loadLoop_shape : ∀ (n : Nat) (file : IStream) (s s' : Library),
    loadLoop n file s = some s' → ∃ bs : List Book, s' = bs.foldl loadRecord s := by
  intro n
  induction n with
  | zero =>
    intro file s s' h
    rw [loadLoop] at h
    exact ⟨[], (Option.some.inj h).symm⟩
  | succ n ih =>
    intro file s s' h
    rw [loadLoop] at h
    split at h
    · split at h
      · cases h
      · split at h
        · cases h
        · split at h
          · cases h
          · obtain ⟨bs, hbs⟩ := ih _ _ _ h
            exact ⟨_ :: bs, hbs⟩
    · exact ih _ _ _ h

theorem create_shape (disk : Option (List Char)) (canWrite : Bool) (bookCount0 : Int)
    (s0 : Library) (h : Library.create disk canWrite bookCount0 = some s0) :
    s0.head = s0.allBooks ∧ s0.root = s0.head.foldl insertTree Tree.nil ∧
      s0.deletedBooks = [] := by
  cases disk with
  | none =>
    have h0 : s0 = addDefaults (Library.blank none canWrite) := (Option.some.inj h).symm
    subst h0
    cases canWrite <;> decide
  | some contents =>
    simp only [Library.create, loadFromFile] at h
    obtain ⟨bs, hbs⟩ := loadLoop_shape _ _ _ _ h
    rw [foldl_loadRecord] at hbs
    subst hbs
    simp [Library.blank]

theorem borrowBook_head (s : Library) (title : String) :
    (borrowBook s title).1.head = s.head ∨
      ∃ pre b post, s.head = pre ++ b :: post ∧ (borrowBook s title).1.head = pre ++ b.lend :: post ∧
        b.title = title ∧ 0 < b.availableCopies := by
  unfold borrowBook
  cases hloop : borrowLoop title s.head with
  | none => exact Or.inl rfl
  | some l =>
    obtain ⟨pre, b, post, h1, h2, h3, h4⟩ := borrowLoop_some title s.head l hloop
    exact Or.inr ⟨pre, b, post, h1, by simp [h2], h3, h4⟩

theorem returnBook_head (s : Library) (title : String) :
    (returnBook s title).1.head = s.head ∨
      ∃ pre b post, s.head = pre ++ b :: post ∧
        (returnBook s title).1.head = pre ++ b.giveBack :: post ∧ b.title = title := by
  unfold returnBook
  cases hloop : returnLoop title s.head with
  | none => exact Or.inl rfl
  | some l =>
    obtain ⟨pre, b, post, h1, h2, h3, _⟩ := returnLoop_some title s.head l hloop
    exact Or.inr ⟨pre, b, post, h1, by simp [h2], h3⟩

theorem deleteBook_cases (s : Library) (title : String) :
    (deleteBook s title).1 = s ∨
      ∃ pre d post, s.head = pre ++ d :: post ∧ (deleteBook s title).1.head = pre ++ post ∧
        (deleteBook s title).1.allBooks = pre ++ post ∧
        (deleteBook s title).1.deletedBooks = d :: s.deletedBooks ∧
        (deleteBook s title).1.root = s.root ∧
        (deleteBook s title).1.searchRequests = s.searchRequests := by
  unfold deleteBook
  by_cases he : s.head = []
  · simp [he]
  · cases hloop : deleteLoop title s.head with
    | none => simp [he, hloop]
    | some p =>
      obtain ⟨d, l⟩ := p
      obtain ⟨pre, post, h1, h2, _, _⟩ := deleteLoop_some title s.head l d hloop
      exact Or.inr ⟨pre, d, post, h1, by simp [he, h2]⟩

theorem borrowBook_frame (s : Library) (title : String) :
    (borrowBook s title).1.allBooks = s.allBooks ∧ (borrowBook s title).1.root = s.root ∧
      (borrowBook s title).1.deletedBooks = s.deletedBooks := by
  unfold borrowBook
  cases borrowLoop title s.head <;> simp

theorem returnBook_frame (s : Library) (title : String) :
    (returnBook s title).1.allBooks = s.allBooks ∧ (returnBook s title).1.root = s.root ∧
      (returnBook s title).1.deletedBooks = s.deletedBooks := by
  unfold returnBook
  cases returnLoop title s.head <;> simp

theorem applyOp_agree (s : Library) (op : Op)
    (h : s.head.map Book.fixedFields = s.allBooks.map Book.fixedFields) :
    (applyOp s op).head.map Book.fixedFields = (applyOp s op).allBooks.map Book.fixedFields := by
  cases op with
  | addBook c => simp [applyOp, addBook, h]
  | borrowBook title =>
    simp only [applyOp, (borrowBook_frame s title).1]
    rcases borrowBook_head s title with h1 | ⟨pre, b, post, h1, h2, _, _⟩
    · rw [h1, h]
    · rw [h2, ← h, h1]
      simp [Book.fixedFields, Book.lend]
  | returnBook title =>
    simp only [applyOp, (returnBook_frame s title).1]
    rcases returnBook_head s title with h1 | ⟨pre, b, post, h1, h2, _⟩
    · rw [h1, h]
    · rw [h2, ← h, h1]
      simp [Book.fixedFields, Book.giveBack]
  | deleteBook title =>
    simp only [applyOp]
    rcases deleteBook_cases s title with h1 | ⟨pre, d, post, _, h2, h3, _⟩
    · rw [h1, h]
    · rw [h2, h3]
  | restoreBook =>
    simp only [applyOp, restoreBook]
    cases hd : s.deletedBooks with
    | nil => simpa using h
    | cons b rest => simp [addBook, h]
  | searchByTitle title => simpa [applyOp, searchByTitle] using h

theorem run_agree (ops : List Op) (s : Library)
    (h : s.head.map Book.fixedFields = s.allBooks.map Book.fixedFields) :
    (run s ops).head.map Book.fixedFields = (run s ops).allBooks.map Book.fixedFields := by
  induction ops generalizing s with
  | nil => exact h
  | cons op ops ih => exact ih (applyOp s op) (applyOp_agree s op h)

/-- C20. The list and the vector agree: in every state reached from a constructed library
(loaded from a file or seeded) by calls of `addBook`, `borrowBook`, `returnBook`, `deleteBook`,
`restoreBook` and `searchByTitle`, the list and the vector have the same length and hold, position by
position, the same title, author, isbn, category, year and totalCopies. -/
theorem list_vector_agree (disk : Option (List Char)) (canWrite : Bool) (bookCount0 : Int)
    (s0 : Library) (h : Library.create disk canWrite bookCount0 = some s0) (ops : List Op) :
    (run s0 ops).head.length = (run s0 ops).allBooks.length ∧
      (run s0 ops).head.map Book.fixedFields = (run s0 ops).allBooks.map Book.fixedFields := by
  have h0 : s0.head.map Book.fixedFields = s0.allBooks.map Book.fixedFields := by
    rw [(create_shape disk canWrite bookCount0 s0 h).1]
  have h1 := run_agree ops s0 h0
  refine ⟨?_, h1⟩
  have h2 := congrArg List.length h1
  simpa using h2

/-- C20, on the seeded library after a borrow, a deletion, an addition and a restore: the list
and the vector agree on the six fields, and differ in `availableCopies`. -/
theorem list_vector_agree_witness :
    ((run seeded busyDay).head.map Book.availableCopies = [5, 1, 1, 3] ∧
      (run seeded busyDay).allBooks.map Book.availableCopies = [5, 1, 2, 3]) ∧
    ((run seeded busyDay).head.length = (run seeded busyDay).allBooks.length ∧
      (run seeded busyDay).head.map Book.fixedFields
        = (run seeded busyDay).allBooks.map Book.fixedFields) :=
  ⟨by decide, list_vector_agree none true 0 seeded rfl busyDay⟩

/-- C12. `linearSearch` is authoritative: in every state reached from a constructed library by
calls of `addBook`, `borrowBook`, `returnBook`, `deleteBook`, `restoreBook` and
`searchByTitle`, it returns `true` exactly when a node of the list has the title. -/
theorem linearSearch_authoritative (disk : Option (List Char)) (canWrite : Bool)
    (bookCount0 : Int) (s0 : Library) (h : Library.create disk canWrite bookCount0 = some s0)
    (ops : List Op) (title : String) :
    linearSearch (run s0 ops) title = true ↔ ∃ b ∈ (run s0 ops).head, b.title = title := by
  have h0 : s0.head.map Book.fixedFields = s0.allBooks.map Book.fixedFields := by
    rw [(create_shape disk canWrite bookCount0 s0 h).1]
  have h1 := run_agree ops s0 h0
  have h2 : (run s0 ops).head.map Book.title = (run s0 ops).allBooks.map Book.title := by
    have := congrArg (List.map Prod.fst) h1
    simpa [List.map_map, Function.comp_def, Book.fixedFields] using this
  unfold linearSearch
  rw [linearSearchLoop_iff]
  have key : ∀ l : List Book, (∃ b ∈ l, b.title = title) ↔ title ∈ l.map Book.title := by
    intro l
    simp [List.mem_map]
  rw [key, key, h2]

/-- C12, on the seeded library after `deleteBook("Mathematics")`: the title is no longer found,
and "Data Structures" still is. -/
theorem linearSearch_authoritative_witness :
    linearSearch (run seeded [Op.deleteBook "Mathematics"]) "Mathematics" = false ∧
    linearSearch (run seeded [Op.deleteBook "Mathematics"]) "Data Structures" = true ∧
    (linearSearch (run seeded [Op.deleteBook "Mathematics"]) "Data Structures" = true ↔
      ∃ b ∈ (run seeded [Op.deleteBook "Mathematics"]).head, b.title = "Data Structures") :=
  ⟨by decide, by decide,
    linearSearch_authoritative none true 0 seeded rfl [Op.deleteBook "Mathematics"]
      "Data Structures"⟩

/-! ## The tree as a view of the insertions -/

theorem inOrder_insertTree_perm (t : Tree) (b : Book) :
    (inOrder (insertTree t b)).Perm (b :: inOrder t) := by
  induction t with
  | nil => simp [insertTree, inOrder]
  | node l a r ihl ihr =>
    by_cases hlt : b.title.data < a.title.data
    · simp only [insertTree, if_pos hlt, inOrder]
      exact (ihl.append_right _).trans (by simp)
    · simp only [insertTree, if_neg hlt, inOrder]
      have h1 : (inOrder l ++ a :: inOrder (insertTree r b)).Perm
          (inOrder l ++ a :: b :: inOrder r) :=
        List.Perm.append_left _ (List.Perm.cons a ihr)
      have h2 : (inOrder l ++ a :: b :: inOrder r).Perm (b :: (inOrder l ++ a :: inOrder r)) := by
        have h3 : (a :: b :: inOrder r).Perm (b :: a :: inOrder r) := List.Perm.swap b a _
        exact (List.Perm.append_left _ h3).trans List.perm_middle
      exact h1.trans h2

theorem mem_inOrder_insertTree (t : Tree) (b x : Book) :
    x ∈ inOrder (insertTree t b) ↔ x = b ∨ x ∈ inOrder t := by
  rw [(inOrder_insertTree_perm t b).mem_iff, List.mem_cons]

theorem insertTree_isBST (t : Tree) (b : Book) (h : IsBST t) : IsBST (insertTree t b) := by
  induction t with
  | nil => simp [insertTree, IsBST, inOrder]
  | node l a r ihl ihr =>
    obtain ⟨hl, hr, hlo, hhi⟩ := h
    by_cases hlt : b.title.data < a.title.data
    · simp only [insertTree, if_pos hlt, IsBST]
      refine ⟨ihl hl, hr, ?_, hhi⟩
      intro x hx
      rcases (mem_inOrder_insertTree l b x).1 hx with rfl | hx
      · exact hlt
      · exact hlo x hx
    · simp only [insertTree, if_neg hlt, IsBST]
      refine ⟨hl, ihr hr, hlo, ?_⟩
      intro x hx
      rcases (mem_inOrder_insertTree r b x).1 hx with rfl | hx
      · exact hlt
      · exact hhi x hx

theorem foldl_insertTree_spec (bs : List Book) (t : Tree) (h : IsBST t) :
    IsBST (bs.foldl insertTree t) ∧ (inOrder (bs.foldl insertTree t)).Perm (inOrder t ++ bs) := by
  induction bs generalizing t with
  | nil => simpa using h
  | cons b tl ih =>
    obtain ⟨h1, h2⟩ := ih (insertTree t b) (insertTree_isBST t b h)
    refine ⟨h1, h2.trans ?_⟩
    have h3 : (inOrder (insertTree t b) ++ tl).Perm ((b :: inOrder t) ++ tl) :=
      (inOrder_insertTree_perm t b).append_right tl
    exact h3.trans (by simpa using List.perm_middle.symm)

theorem isBST_sorted (t : Tree) (h : IsBST t) :
    (inOrder t).Pairwise (fun a b => a.title.data ≤ b.title.data) := by
  induction t with
  | nil => simp [inOrder]
  | node l a r ihl ihr =>
    obtain ⟨hl, hr, hlo, hhi⟩ := h
    simp only [inOrder]
    rw [List.pairwise_append]
    refine ⟨ihl hl, ?_, ?_⟩
    · rw [List.pairwise_cons]
      exact ⟨fun y hy => not_lt.1 (hhi y hy), ihr hr⟩
    · intro x hx y hy
      rcases List.mem_cons.1 hy with rfl | hy
      · exact le_of_lt (hlo x hx)
      · exact le_trans (le_of_lt (hlo x hx)) (not_lt.1 (hhi y hy))

theorem searchTree_iff (t : Tree) (title : String) (h : IsBST t) :
    searchTree t title = true ↔ ∃ b ∈ inOrder t, b.title = title := by
  induction t with
  | nil => simp [searchTree, inOrder]
  | node l a r ihl ihr =>
    obtain ⟨hl, hr, hlo, hhi⟩ := h
    by_cases ha : a.title = title
    · simp only [searchTree, if_pos ha, inOrder, true_iff]
      exact ⟨a, by simp, ha⟩
    · by_cases hlt : title.data < a.title.data
      · simp only [searchTree, if_neg ha, if_pos hlt, inOrder, ihl hl]
        constructor
        · rintro ⟨b, hb, hb2⟩
          exact ⟨b, by simp [hb], hb2⟩
        · rintro ⟨b, hb, hb2⟩
          rcases List.mem_append.1 hb with hb | hb
          · exact ⟨b, hb, hb2⟩
          · rcases List.mem_cons.1 hb with rfl | hb
            · exact absurd hb2 ha
            · exact absurd (hb2 ▸ hlt) (hhi b hb)
      · simp only [searchTree, if_neg ha, if_neg hlt, inOrder, ihr hr]
        constructor
        · rintro ⟨b, hb, hb2⟩
          exact ⟨b, by simp [hb], hb2⟩
        · rintro ⟨b, hb, hb2⟩
          rcases List.mem_append.1 hb with hb | hb
          · exact absurd (hb2 ▸ hlo b hb) hlt
          · rcases List.mem_cons.1 hb with rfl | hb
            · exact absurd hb2 ha
            · exact ⟨b, hb, hb2⟩

theorem applyOp_root (s : Library) (op : Op) :
    (applyOp s op).root = (insertedBy s op).foldl insertTree s.root := by
  cases op with
  | addBook c => simp [applyOp, addBook, insertedBy]
  | borrowBook title => simp [applyOp, insertedBy, (borrowBook_frame s title).2.1]
  | returnBook title => simp [applyOp, insertedBy, (returnBook_frame s title).2.1]
  | deleteBook title =>
    simp only [applyOp, insertedBy, List.foldl_nil]
    rcases deleteBook_cases s title with h1 | ⟨_, _, _, _, _, _, _, h5, _⟩
    · rw [h1]
    · exact h5
  | restoreBook =>
    simp only [applyOp, restoreBook, insertedBy]
    cases hd : s.deletedBooks with
    | nil => simp
    | cons b rest => simp [addBook]
  | searchByTitle title => simp [applyOp, insertedBy, searchByTitle]

theorem run_root (ops : List Op) (s : Library) (base : List Book)
    (h : s.root = base.foldl insertTree Tree.nil) :
    (run s ops).root = (base ++ history s ops).foldl insertTree Tree.nil := by
  induction ops generalizing s base with
  | nil => simpa [run, history] using h
  | cons op ops ih =>
    have h1 : (applyOp s op).root = (base ++ insertedBy s op).foldl insertTree Tree.nil := by
      rw [applyOp_root, h, List.foldl_append]
    have h2 := ih (applyOp s op) (base ++ insertedBy s op) h1
    simpa [run, history, List.append_assoc] using h2

theorem created_run_root (disk : Option (List Char)) (canWrite : Bool) (bookCount0 : Int)
    (s0 : Library) (h : Library.create disk canWrite bookCount0 = some s0) (ops : List Op) :
    IsBST (run s0 ops).root ∧
      (inOrder (run s0 ops).root).Perm (s0.head ++ history s0 ops) := by
  have h1 := run_root ops s0 s0.head (create_shape disk canWrite bookCount0 s0 h).2.1
  rw [h1]
  have h2 := foldl_insertTree_spec (s0.head ++ history s0 ops) Tree.nil trivial
  exact ⟨h2.1, by simpa [inOrder] using h2.2⟩

/-- C13. `searchByTitle` is an exact-match search of the insert-only tree: in every state
reached from a constructed library by calls of `addBook`, `borrowBook`, `returnBook`,
`deleteBook`, `restoreBook` and `searchByTitle`, it reports found exactly when a book with this
title was handed to `insertTree` by the load, by an `addBook` or by a `restoreBook`, whether
or not the book was deleted afterwards. -/
theorem searchByTitle_exact (disk : Option (List Char)) (canWrite : Bool) (bookCount0 : Int)
    (s0 : Library) (h : Library.create disk canWrite bookCount0 = some s0) (ops : List Op)
    (title : String) :
    (searchByTitle (run s0 ops) title).2 = true ↔
      ∃ b ∈ s0.head ++ history s0 ops, b.title = title := by
  obtain ⟨hbst, hperm⟩ := created_run_root disk canWrite bookCount0 s0 h ops
  simp only [searchByTitle]
  rw [searchTree_iff _ title hbst]
  constructor
  · rintro ⟨b, hb, hb2⟩; exact ⟨b, hperm.mem_iff.1 hb, hb2⟩
  · rintro ⟨b, hb, hb2⟩; exact ⟨b, hperm.mem_iff.2 hb, hb2⟩

/-- C13, on the seeded library after `deleteBook("Mathematics")`: the title is gone from the
list and `searchByTitle("Mathematics")` still reports found. -/
theorem searchByTitle_exact_witness :
    (run seeded [Op.deleteBook "Mathematics"]).head.map Book.title
      = ["C++ Programming", "Data Structures"] ∧
    (searchByTitle (run seeded [Op.deleteBook "Mathematics"]) "Mathematics").2 = true ∧
    ((searchByTitle (run seeded [Op.deleteBook "Mathematics"]) "Mathematics").2 = true ↔
      ∃ b ∈ seeded.head ++ history seeded [Op.deleteBook "Mathematics"],
        b.title = "Mathematics") :=
  ⟨by decide, by decide,
    searchByTitle_exact none true 0 seeded rfl [Op.deleteBook "Mathematics"] "Mathematics"⟩

/-- C14. The in-order traversal is a sorted view of the insertion history: in every state
reached from a constructed library by calls of `addBook`, `borrowBook`, `returnBook`,
`deleteBook`, `restoreBook` and `searchByTitle`, it is a rearrangement of the books handed to
`insertTree` by the load, by `addBook` and by `restoreBook`, as they were when inserted, in
non-decreasing order of title, and a `deleteBook` leaves it as it is. -/
theorem inOrder_history (disk : Option (List Char)) (canWrite : Bool) (bookCount0 : Int)
    (s0 : Library) (h : Library.create disk canWrite bookCount0 = some s0) (ops : List Op) :
    (inOrder (run s0 ops).root).Perm (s0.head ++ history s0 ops) ∧
    (inOrder (run s0 ops).root).Pairwise (fun a b => a.title.data ≤ b.title.data) ∧
    ∀ title, inOrder (deleteBook (run s0 ops) title).1.root = inOrder (run s0 ops).root := by
  obtain ⟨hbst, hperm⟩ := created_run_root disk canWrite bookCount0 s0 h ops
  refine ⟨hperm, isBST_sorted _ hbst, ?_⟩
  intro title
  have := applyOp_root (run s0 ops) (Op.deleteBook title)
  simp only [applyOp, insertedBy, List.foldl_nil] at this
  rw [this]

/-- C14, on the seeded library after `deleteBook("Mathematics")`: the list no longer holds the
title, the in-order traversal still does. -/
theorem inOrder_history_witness :
    (run seeded [Op.deleteBook "Mathematics"]).head.map Book.title
      = ["C++ Programming", "Data Structures"] ∧
    (inOrder (run seeded [Op.deleteBook "Mathematics"]).root).map Book.title
      = ["C++ Programming", "Data Structures", "Mathematics"] ∧
    ((inOrder (run seeded [Op.deleteBook "Mathematics"]).root).Perm
        (seeded.head ++ history seeded [Op.deleteBook "Mathematics"]) ∧
      (inOrder (run seeded [Op.deleteBook "Mathematics"]).root).Pairwise
        (fun a b => a.title.data ≤ b.title.data) ∧
      ∀ title, inOrder (deleteBook (run seeded [Op.deleteBook "Mathematics"]) title).1.root
        = inOrder (run seeded [Op.deleteBook "Mathematics"]).root) :=
  ⟨by decide, by decide, inOrder_history none true 0 seeded rfl [Op.deleteBook "Mathematics"]⟩

/-! ## Counters and flags -/

theorem applyOp_invariant (P Q : Book → Prop) (allowed : Op → Prop)
    (hadd : ∀ c, allowed (Op.addBook c) →
      P (Book.ctor c.title c.author c.isbn c.category c.year c.copies))
    (hborrow : ∀ b, P b → 0 < b.availableCopies → P b.lend)
    (hreturn : ∀ t, allowed (Op.returnBook t) → ∀ b, P b → P b.giveBack)
    (hdel : ∀ b, P b → Q b)
    (hres : ∀ b, Q b → P (Book.ctor b.title b.author b.isbn b.category b.year b.totalCopies))
    (s : Library) (op : Op) (hop : allowed op)
    (hP : ∀ b ∈ s.head, P b) (hQ : ∀ b ∈ s.deletedBooks, Q b) :
    (∀ b ∈ (applyOp s op).head, P b) ∧ (∀ b ∈ (applyOp s op).deletedBooks, Q b) := by
  cases op with
  | addBook c =>
    simp only [applyOp, addBook, saveToFile_head, saveToFile_deletedBooks]
    refine ⟨?_, hQ⟩
    intro b hb
    rcases List.mem_append.1 hb with hb | hb
    · exact hP b hb
    · rw [List.mem_singleton] at hb
      rw [hb]
      exact hadd c hop
  | borrowBook title =>
    simp only [applyOp, (borrowBook_frame s title).2.2]
    refine ⟨?_, hQ⟩
    rcases borrowBook_head s title with h1 | ⟨pre, b, post, h1, h2, _, h4⟩
    · rw [h1]; exact hP
    · rw [h2]
      rw [h1] at hP
      intro x hx
      rcases List.mem_append.1 hx with hx | hx
      · exact hP x (by simp [hx])
      · rcases List.mem_cons.1 hx with rfl | hx
        · exact hborrow b (hP b (by simp)) h4
        · exact hP x (by simp [hx])
  | returnBook title =>
    simp only [applyOp, (returnBook_frame s title).2.2]
    refine ⟨?_, hQ⟩
    rcases returnBook_head s title with h1 | ⟨pre, b, post, h1, h2, _⟩
    · rw [h1]; exact hP
    · rw [h2]
      rw [h1] at hP
      intro x hx
      rcases List.mem_append.1 hx with hx | hx
      · exact hP x (by simp [hx])
      · rcases List.mem_cons.1 hx with rfl | hx
        · exact hreturn title hop b (hP b (by simp))
        · exact hP x (by simp [hx])
  | deleteBook title =>
    simp only [applyOp]
    rcases deleteBook_cases s title with h1 | ⟨pre, d, post, h1, h2, _, h4, _, _⟩
    · rw [h1]; exact ⟨hP, hQ⟩
    · rw [h2, h4]
      rw [h1] at hP
      constructor
      · intro x hx
        rcases List.mem_append.1 hx with hx | hx
        · exact hP x (by simp [hx])
        · exact hP x (by simp [hx])
      · intro x hx
        rcases List.mem_cons.1 hx with rfl | hx
        · exact hdel x (hP x (by simp))
        · exact hQ x hx
  | restoreBook =>
    simp only [applyOp, restoreBook]
    cases hd : s.deletedBooks with
    | nil =>
      rw [hd] at hQ
      exact ⟨hP, by simp [hd]⟩
    | cons b rest =>
      rw [hd] at hQ
      simp only [addBook, saveToFile_head, saveToFile_deletedBooks]
      constructor
      · intro x hx
        rcases List.mem_append.1 hx with hx | hx
        · exact hP x hx
        · rw [List.mem_singleton] at hx
          rw [hx]
          exact hres b (hQ b (by simp))
      · intro x hx
        exact hQ x (by simp [hx])
  | searchByTitle title => exact ⟨hP, hQ⟩

theorem run_invariant (P Q : Book → Prop) (allowed : Op → Prop)
    (hadd : ∀ c, allowed (Op.addBook c) →
      P (Book.ctor c.title c.author c.isbn c.category c.year c.copies))
    (hborrow : ∀ b, P b → 0 < b.availableCopies → P b.lend)
    (hreturn : ∀ t, allowed (Op.returnBook t) → ∀ b, P b → P b.giveBack)
    (hdel : ∀ b, P b → Q b)
    (hres : ∀ b, Q b → P (Book.ctor b.title b.author b.isbn b.category b.year b.totalCopies))
    (ops : List Op) (s : Library) (hops : ∀ op ∈ ops, allowed op)
    (hP : ∀ b ∈ s.head, P b) (hQ : ∀ b ∈ s.deletedBooks, Q b) :
    (∀ b ∈ (run s ops).head, P b) ∧ (∀ b ∈ (run s ops).deletedBooks, Q b) := by
  induction ops generalizing s with
  | nil => exact ⟨hP, hQ⟩
  | cons op ops ih =>
    obtain ⟨h1, h2⟩ := applyOp_invariant P Q allowed hadd hborrow hreturn hdel hres s op
      (hops op (List.mem_cons_self _ _)) hP hQ
    exact ih (applyOp s op) (fun o ho => hops o (List.mem_cons_of_mem _ ho)) h1 h2

theorem run_flags (ops : List Op) (s : Library) (hops : ops.all Op.typed = true)
    (hP : ∀ b ∈ s.head, isInt b.availableCopies ∧ isInt b.totalCopies ∧
      (b.isAvailable = false → b.availableCopies = 0))
    (hQ : ∀ b ∈ s.deletedBooks, isInt b.totalCopies) :
    ∀ b ∈ (run s ops).head, isInt b.availableCopies ∧ isInt b.totalCopies ∧
      (b.isAvailable = false → b.availableCopies = 0) := by
  refine (run_invariant
    (fun b => isInt b.availableCopies ∧ isInt b.totalCopies ∧
      (b.isAvailable = false → b.availableCopies = 0))
    (fun b => isInt b.totalCopies) (fun op => op.typed = true)
    ?_ ?_ ?_ ?_ ?_ ops s (List.all_eq_true.1 hops) hP hQ).1
  · intro c hc
    have : isInt c.copies := by simpa [Op.typed] using hc
    simp [Book.ctor, this]
  · intro b hb hpos
    obtain ⟨h1, h2, h3⟩ := hb
    refine ⟨?_, h2, ?_⟩
    · unfold isInt INT_MIN INT_MAX at h1 ⊢
      simp only [Book.lend]
      omega
    · simp only [Book.lend]
      intro hfalse
      by_cases h0 : b.availableCopies - 1 = 0
      · exact h0
      · rw [if_neg h0] at hfalse
        have := h3 hfalse
        omega
  · intro t _ b hb
    exact ⟨wrapInt_isInt _, hb.2.1, by simp [Book.giveBack]⟩
  · intro b hb
    exact hb.2.1
  · intro b hb
    simp [Book.ctor, hb]

theorem run_upper (ops : List Op) (s : Library) (hops : ops.all Op.notReturn = true)
    (hP : ∀ b ∈ s.head, b.availableCopies ≤ b.totalCopies) :
    ∀ b ∈ (run s ops).head, b.availableCopies ≤ b.totalCopies := by
  refine (run_invariant (fun b => b.availableCopies ≤ b.totalCopies) (fun _ => True)
    (fun op => op.notReturn = true) ?_ ?_ ?_ ?_ ?_ ops s (List.all_eq_true.1 hops) hP
    (fun _ _ => trivial)).1
  · intro c _
    simp [Book.ctor]
  · intro b hb _
    simp only [Book.lend]
    omega
  · intro t ht
    simp [Op.notReturn] at ht
  · intro b _
    trivial
  · intro b _
    simp [Book.ctor]

/-- C15 as stated fails: after `addBook` with -1 copies, `returnBook` succeeds and leaves the
record with `availableCopies = 0` and `isAvailable = true`. -/
theorem flag_wrong_after_negative_add :
    (returnBook minusOne "A").2 = Outcome.returned ∧
    (returnBook minusOne "A").1.head.map (fun b => (b.availableCopies, b.isAvailable))
      = [(0, true)] := by
  decide

/-- C15, amended. In every state reached from a blank library (the seeded library is such a
state) by calls of `addBook` with any `int` number of copies, `borrowBook`, `returnBook`,
`deleteBook`, `restoreBook` and `searchByTitle`: the node that a successful `borrowBook`
changes has, after the call, `isAvailable = true` exactly when its `availableCopies` is
positive; the node that a successful `returnBook` changes has `isAvailable = true` after the
call, and its `availableCopies` is then positive exactly when it was at least 0 and less than
`INT_MAX` before the call. -/
theorem flag_invariant (disk : Option (List Char)) (canWrite : Bool) (ops : List Op)
    (hops : ops.all Op.typed = true) (title : String) :
    (∀ pre b post, (run (Library.blank disk canWrite) ops).head = pre ++ b :: post →
      (∀ x ∈ pre, ¬ (x.title = title ∧ x.availableCopies > 0)) → b.title = title →
      b.availableCopies > 0 →
      ∃ b', (borrowBook (run (Library.blank disk canWrite) ops) title).1.head
          = pre ++ b' :: post ∧
        (b'.isAvailable = true ↔ 0 < b'.availableCopies)) ∧
    (∀ pre b post, (run (Library.blank disk canWrite) ops).head = pre ++ b :: post →
      (∀ x ∈ pre, x.title ≠ title) → b.title = title →
      ∃ b', (returnBook (run (Library.blank disk canWrite) ops) title).1.head
          = pre ++ b' :: post ∧
        b'.isAvailable = true ∧
        (0 < b'.availableCopies ↔ 0 ≤ b.availableCopies ∧ b.availableCopies < INT_MAX)) := by
  have hinv := run_flags ops (Library.blank disk canWrite) hops
    (by simp [Library.blank]) (by simp [Library.blank])
  constructor
  · intro pre b post hl hpre hb hpos
    have hloop := borrowLoop_at title pre b post hpre hb hpos
    rw [← hl] at hloop
    refine ⟨b.lend, by simp [borrowBook, hloop], ?_⟩
    obtain ⟨_, _, h3⟩ := hinv b (by rw [hl]; simp)
    simp only [Book.lend]
    by_cases h0 : b.availableCopies - 1 = 0
    · simp [h0]
    · rw [if_neg h0]
      have htrue : b.isAvailable = true := by
        cases hav : b.isAvailable with
        | true => rfl
        | false => have := h3 hav; omega
      simp only [htrue, true_iff]
      omega
  · intro pre b post hl hpre hb
    have hloop := returnLoop_at title pre b post hpre hb
    rw [← hl] at hloop
    refine ⟨b.giveBack, by simp [returnBook, hloop, Book.giveBack], rfl, ?_⟩
    obtain ⟨h1, _, _⟩ := hinv b (by rw [hl]; simp)
    unfold isInt INT_MIN INT_MAX at h1
    simp only [Book.giveBack, wrapInt, INT_MAX]
    omega

/-- C15, amended, on the one-book library with one of its two copies lent (a borrow leaves
0 copies and the flag off, a return leaves 2 copies and the flag on) and on the one-book
library with `INT_MAX` copies (a return wraps the count to `INT_MIN` with the flag on). -/
theorem flag_invariant_witness :
    ((borrowBook (run (Library.blank none true) lendOne) "A").1.head.map
        (fun b => (b.availableCopies, b.isAvailable)) = [(0, false)] ∧
      (returnBook (run (Library.blank none true) lendOne) "A").1.head.map
        (fun b => (b.availableCopies, b.isAvailable)) = [(2, true)] ∧
      (returnBook maxCopies "A").1.head.map
        (fun b => (b.availableCopies, b.isAvailable)) = [(-2147483648, true)]) ∧
    ((∀ pre b post, (run (Library.blank none true) lendOne).head = pre ++ b :: post →
      (∀ x ∈ pre, ¬ (x.title = "A" ∧ x.availableCopies > 0)) → b.title = "A" →
      b.availableCopies > 0 →
      ∃ b', (borrowBook (run (Library.blank none true) lendOne) "A").1.head
          = pre ++ b' :: post ∧
        (b'.isAvailable = true ↔ 0 < b'.availableCopies)) ∧
    (∀ pre b post, (run (Library.blank none true) lendOne).head = pre ++ b :: post →
      (∀ x ∈ pre, x.title ≠ "A") → b.title = "A" →
      ∃ b', (returnBook (run (Library.blank none true) lendOne) "A").1.head
          = pre ++ b' :: post ∧
        b'.isAvailable = true ∧
        (0 < b'.availableCopies ↔ 0 ≤ b.availableCopies ∧ b.availableCopies < INT_MAX))) :=
  ⟨by decide, flag_invariant none true lendOne (by decide) "A"⟩

theorem returnCount_notReturn (ops : List Op) (h : ops.all Op.notReturn = true) :
    returnCount ops = 0 := by
  induction ops with
  | nil => rfl
  | cons op ops ih =>
    rw [List.all_cons, Bool.and_eq_true] at h
    cases op <;> simp_all [returnCount, Op.notReturn]

theorem applyOp_within (total r : Nat) (s : Library) (op : Op)
    (hfit : op.copiesFit total = true) (hr : r + returnCount [op] ≤ total)
    (hP : ∀ b ∈ s.head, b.within total r)
    (hQ : ∀ b ∈ s.deletedBooks, 0 ≤ b.totalCopies ∧ b.totalCopies + total ≤ INT_MAX) :
    (∀ b ∈ (applyOp s op).head, b.within total (r + returnCount [op])) ∧
      (∀ b ∈ (applyOp s op).deletedBooks,
        0 ≤ b.totalCopies ∧ b.totalCopies + total ≤ INT_MAX) := by
  by_cases hret : ∃ title, op = Op.returnBook title
  · obtain ⟨title, rfl⟩ := hret
    have hr1 : r + 1 ≤ total := by simpa [returnCount] using hr
    simp only [applyOp, (returnBook_frame s title).2.2, returnCount]
    refine ⟨?_, hQ⟩
    have hmono : ∀ b : Book, b.within total r → b.within total (0 + 1 + r) := by
      intro b hb
      unfold Book.within at hb ⊢
      push_cast
      omega
    rw [Nat.add_comm r]
    rcases returnBook_head s title with h1 | ⟨pre, b, post, h1, h2, _⟩
    · rw [h1]
      exact fun x hx => hmono x (hP x hx)
    · rw [h2]
      rw [h1] at hP
      intro x hx
      rcases List.mem_append.1 hx with hx | hx
      · exact hmono x (hP x (by simp [hx]))
      · rcases List.mem_cons.1 hx with rfl | hx
        · have hb := hP b (by simp)
          unfold Book.within at hb ⊢
          unfold INT_MAX at hb
          simp only [Book.giveBack, wrapInt, INT_MAX]
          push_cast
          omega
        · exact hmono x (hP x (by simp [hx]))
  · have hzero : returnCount [op] = 0 := by
      cases op <;> first | rfl | exact absurd ⟨_, rfl⟩ hret
    rw [hzero, Nat.add_zero]
    refine applyOp_invariant (fun b => b.within total r)
      (fun b => 0 ≤ b.totalCopies ∧ b.totalCopies + total ≤ INT_MAX)
      (fun o => o.copiesFit total = true ∧ ¬ ∃ title, o = Op.returnBook title)
      ?_ ?_ ?_ ?_ ?_ s op ⟨hfit, hret⟩ hP hQ
    · intro c hc
      have h1 : 0 ≤ c.copies ∧ c.copies + total ≤ INT_MAX := by
        simpa [Op.copiesFit] using hc.1
      unfold Book.within
      simp only [Book.ctor]
      omega
    · intro b hb hpos
      unfold Book.within at hb ⊢
      simp only [Book.lend]
      omega
    · intro t ht
      exact absurd ⟨t, rfl⟩ ht.2
    · intro b hb
      exact ⟨hb.2.2.1, hb.2.2.2⟩
    · intro b hb
      unfold Book.within
      simp only [Book.ctor]
      omega

theorem returnCount_cons (op : Op) (ops : List Op) :
    returnCount (op :: ops) = returnCount [op] + returnCount ops := by
  cases op <;> simp [returnCount, Nat.add_comm]

theorem run_within (total : Nat) (ops : List Op) (s : Library) (r : Nat)
    (hfit : ∀ op ∈ ops, op.copiesFit total = true) (hr : r + returnCount ops ≤ total)
    (hP : ∀ b ∈ s.head, b.within total r)
    (hQ : ∀ b ∈ s.deletedBooks, 0 ≤ b.totalCopies ∧ b.totalCopies + total ≤ INT_MAX) :
    ∀ b ∈ (run s ops).head, b.within total (r + returnCount ops) := by
  induction ops generalizing s r with
  | nil => simpa [run, returnCount] using hP
  | cons op ops ih =>
    rw [returnCount_cons] at hr ⊢
    obtain ⟨h1, h2⟩ := applyOp_within total r s op (hfit op (List.mem_cons_self _ _))
      (by omega) hP hQ
    have := ih (applyOp s op) (r + returnCount [op])
      (fun o ho => hfit o (List.mem_cons_of_mem _ ho)) (by omega) h1 h2
    rw [Nat.add_assoc] at this
    exact this

/-- C16 as stated fails: on the seeded library `returnBook("Mathematics")` leaves 3 available
copies of a book with 2 copies in total. -/
theorem return_exceeds_total :
    (run seeded [Op.returnBook "Mathematics"]).head.map
      (fun b => (b.title, b.availableCopies, b.totalCopies))
      = [("C++ Programming", 5, 5), ("Data Structures", 3, 3), ("Mathematics", 3, 2)] ∧
    ∃ b ∈ (run seeded [Op.returnBook "Mathematics"]).head,
      ¬ (0 ≤ b.availableCopies ∧ b.availableCopies ≤ b.totalCopies) := by
  decide

/-- C16, amended. In every state reached from the seeded library by calls of `addBook` with
`copies ≥ 0`, `borrowBook`, `returnBook`, `deleteBook`, `restoreBook` and `searchByTitle`,
every node of the list has `0 ≤ availableCopies ≤ totalCopies + r`, where `r` is the number
of `returnBook` calls, provided `totalCopies + r` stays an `int` (`copies + r ≤ INT_MAX` in
every `addBook`, and `5 + r ≤ INT_MAX` for the seeded books); when none of the calls is a
`returnBook`, this is `0 ≤ availableCopies ≤ totalCopies`. -/
theorem copies_bounds (ops : List Op)
    (hfit : ops.all (Op.copiesFit (returnCount ops)) = true)
    (hcount : (returnCount ops : Int) + 5 ≤ INT_MAX) :
    (∀ b ∈ (run seeded ops).head,
      0 ≤ b.availableCopies ∧ b.availableCopies ≤ b.totalCopies + returnCount ops) ∧
    (ops.all Op.notReturn = true →
      ∀ b ∈ (run seeded ops).head,
        0 ≤ b.availableCopies ∧ b.availableCopies ≤ b.totalCopies) := by
  have hseed : ∀ b ∈ seeded.head, b.within (returnCount ops) 0 := by
    have h5 : ∀ b ∈ seeded.head,
        b.availableCopies = b.totalCopies ∧ 0 ≤ b.totalCopies ∧ b.totalCopies ≤ 5 := by
      decide
    intro b hb
    obtain ⟨h1, h2, h3⟩ := h5 b hb
    unfold Book.within
    push_cast
    omega
  have hstack : seeded.deletedBooks = [] := by decide
  have hmain := run_within (returnCount ops) ops seeded 0 (List.all_eq_true.1 hfit)
    (by omega) hseed (fun b hb => by rw [hstack] at hb; cases hb)
  rw [Nat.zero_add] at hmain
  constructor
  · intro b hb
    exact ⟨(hmain b hb).1, (hmain b hb).2.1⟩
  · intro hnr b hb
    have h0 := returnCount_notReturn ops hnr
    have := hmain b hb
    rw [h0] at this
    exact ⟨this.1, by simpa using this.2.1⟩

/-- C16, amended, on the seeded library after a borrow, a deletion, an addition, a restore,
another borrow and two returns of "Mathematics", which then has 3 available copies of 2; and
without the two returns, where both bounds hold. -/
theorem copies_bounds_witness :
    ((run seeded busyWeek).head.map (fun b => (b.availableCopies, b.totalCopies))
      = [(5, 5), (3, 2), (1, 2), (3, 3)] ∧ returnCount busyWeek = 2) ∧
    ((∀ b ∈ (run seeded busyWeek).head,
      0 ≤ b.availableCopies ∧ b.availableCopies ≤ b.totalCopies + returnCount busyWeek) ∧
    (busyWeek.all Op.notReturn = true →
      ∀ b ∈ (run seeded busyWeek).head,
        0 ≤ b.availableCopies ∧ b.availableCopies ≤ b.totalCopies)) :=
  ⟨by decide, copies_bounds busyWeek (by decide) (by decide)⟩

/-! ## Books of equal title in the tree -/

theorem filter_inOrder_insertTree (tr : Tree) (b : Book) (t : String) (h : IsBST tr) :
    (inOrder (insertTree tr b)).filter (fun x => decide (x.title = t)) =
      (inOrder tr).filter (fun x => decide (x.title = t)) ++
        (if b.title = t then [b] else []) := by
  induction tr with
  | nil =>
    by_cases hb : b.title = t <;> simp [insertTree, inOrder, hb]
  | node l a r ihl ihr =>
    obtain ⟨hl, hr, hlo, hhi⟩ := h
    by_cases hlt : b.title.data < a.title.data
    · simp only [insertTree, if_pos hlt, inOrder, List.filter_append, ihl hl]
      by_cases hb : b.title = t
      · have hright : (a :: inOrder r).filter (fun x => decide (x.title = t)) = [] := by
          rw [List.filter_eq_nil_iff]
          intro x hx
          simp only [decide_eq_true_eq]
          intro hxt
          have hxb : x.title.data < a.title.data := by rw [hxt, ← hb]; exact hlt
          rcases List.mem_cons.1 hx with rfl | hx
          · exact lt_irrefl _ hxb
          · exact hhi x hx hxb
        rw [hright]
        simp [hb]
      · simp [hb]
    · simp only [insertTree, if_neg hlt, inOrder, List.filter_append, List.filter_cons, ihr hr]
      split <;> simp

theorem filter_foldl_insertTree (hist : List Book) (tr : Tree) (t : String) (h : IsBST tr) :
    (inOrder (hist.foldl insertTree tr)).filter (fun x => decide (x.title = t)) =
      (inOrder tr).filter (fun x => decide (x.title = t)) ++
        hist.filter (fun x => decide (x.title = t)) := by
  induction hist generalizing tr with
  | nil => simp
  | cons b tl ih =>
    rw [List.foldl_cons, ih _ (insertTree_isBST tr b h), filter_inOrder_insertTree tr b t h]
    by_cases hb : b.title = t <;> simp [List.filter_cons, hb]

theorem eq_of_sorted_of_filter (l₁ l₂ : List Book)
    (h₁ : l₁.Pairwise (fun a b => a.title.data ≤ b.title.data))
    (h₂ : l₂.Pairwise (fun a b => a.title.data ≤ b.title.data))
    (hf : ∀ t : String, l₁.filter (fun x => decide (x.title = t)) =
      l₂.filter (fun x => decide (x.title = t))) : l₁ = l₂ := by
  induction l₁ generalizing l₂ with
  | nil =>
    cases l₂ with
    | nil => rfl
    | cons b l₂ =>
      have := hf b.title
      simp at this
  | cons a l₁ ih =>
    cases l₂ with
    | nil =>
      have := hf a.title
      simp at this
    | cons b l₂ =>
      have hmem : ∀ (l l' : List Book) (x : Book),
          (∀ t : String, l.filter (fun y => decide (y.title = t)) =
            l'.filter (fun y => decide (y.title = t))) → x ∈ l → x ∈ l' := by
        intro l l' x hll hx
        have hx2 : x ∈ l.filter (fun y => decide (y.title = x.title)) := by
          simp [List.mem_filter, hx]
        rw [hll x.title] at hx2
        exact (List.mem_filter.1 hx2).1
      have hab : a.title.data ≤ b.title.data := by
        have hb : b ∈ a :: l₁ := hmem _ _ b (fun t => (hf t).symm) (List.mem_cons_self _ _)
        rcases List.mem_cons.1 hb with rfl | hb
        · exact le_refl _
        · exact (List.pairwise_cons.1 h₁).1 b hb
      have hba : b.title.data ≤ a.title.data := by
        have ha : a ∈ b :: l₂ := hmem _ _ a hf (List.mem_cons_self _ _)
        rcases List.mem_cons.1 ha with rfl | ha
        · exact le_refl _
        · exact (List.pairwise_cons.1 h₂).1 a ha
      have htitle : a.title = b.title := String.ext (le_antisymm hab hba)
      have h0 := hf a.title
      simp only [List.filter_cons, decide_True, if_true, htitle] at h0
      have hhead : a = b := by
        have := congrArg List.head? h0
        simpa using this
      subst hhead
      have htail : l₁ = l₂ := by
        apply ih l₂ (List.pairwise_cons.1 h₁).2 (List.pairwise_cons.1 h₂).2
        intro t
        have ht := hf t
        by_cases hat : a.title = t
        · simpa [List.filter_cons, hat] using ht
        · simpa [List.filter_cons, hat] using ht
      rw [htail]

theorem stableSortByTitle_spec (l : List Book) :
    (stableSortByTitle l).Perm l ∧
    (stableSortByTitle l).Pairwise (fun a b => a.title.data ≤ b.title.data) ∧
    ∀ t : String, (stableSortByTitle l).filter (fun x => decide (x.title = t)) =
      l.filter (fun x => decide (x.title = t)) := by
  have htrans : ∀ a b c : Book, decide (a.title.data ≤ b.title.data) = true →
      decide (b.title.data ≤ c.title.data) = true →
      decide (a.title.data ≤ c.title.data) = true := by
    intro a b c hab hbc
    simp only [decide_eq_true_eq] at *
    exact le_trans hab hbc
  have htotal : ∀ a b : Book, (decide (a.title.data ≤ b.title.data) ||
      decide (b.title.data ≤ a.title.data)) = true := by
    intro a b
    simp only [Bool.or_eq_true, decide_eq_true_eq]
    exact le_total _ _
  have hperm : (stableSortByTitle l).Perm l := List.mergeSort_perm l _
  refine ⟨hperm, ?_, ?_⟩
  · have h := @List.sorted_mergeSort Book (fun a b => decide (a.title.data ≤ b.title.data))
      htrans htotal l
    exact h.imp (fun hab => by simpa using hab)
  · intro t
    have hsub : List.Sublist (l.filter (fun x => decide (x.title = t))) l :=
      List.filter_sublist l
    have hpw : (l.filter (fun x => decide (x.title = t))).Pairwise
        (fun a b => decide (a.title.data ≤ b.title.data) = true) := by
      rw [List.pairwise_iff_forall_sublist]
      intro a b hab
      have ha : a ∈ l.filter (fun x => decide (x.title = t)) := hab.subset (by simp)
      have hb : b ∈ l.filter (fun x => decide (x.title = t)) := hab.subset (by simp)
      have ha2 : a.title = t := by simpa using (List.mem_filter.1 ha).2
      have hb2 : b.title = t := by simpa using (List.mem_filter.1 hb).2
      simp [ha2, hb2]
    have hstab : List.Sublist (l.filter (fun x => decide (x.title = t)))
        (stableSortByTitle l) :=
      List.sublist_mergeSort htrans htotal hpw hsub
    have h2 := hstab.filter (fun x => decide (x.title = t))
    rw [List.filter_filter] at h2
    simp only [Bool.and_self] at h2
    have hlen : (l.filter (fun x => decide (x.title = t))).length
        = ((stableSortByTitle l).filter (fun x => decide (x.title = t))).length :=
      (hperm.filter _).length_eq.symm
    exact (h2.eq_of_length hlen).symm

/-- C21. Books of equal title keep their insertion order in the tree view: for every sequence
of `insertTree` calls on the empty tree, the in-order traversal is the stable sort by title of
the sequence; that is, it is in non-decreasing order of title, and for every title the books of
that title come in the traversal in the order in which they were inserted. -/
theorem inOrder_stable (hist : List Book) :
    inOrder (hist.foldl insertTree Tree.nil) = stableSortByTitle hist ∧
    (inOrder (hist.foldl insertTree Tree.nil)).Pairwise
      (fun a b => a.title.data ≤ b.title.data) ∧
    ∀ t : String, (inOrder (hist.foldl insertTree Tree.nil)).filter
        (fun x => decide (x.title = t)) = hist.filter (fun x => decide (x.title = t)) := by
  have hbst := (foldl_insertTree_spec hist Tree.nil trivial).1
  have hsorted := isBST_sorted _ hbst
  have hfilter : ∀ t : String, (inOrder (hist.foldl insertTree Tree.nil)).filter
      (fun x => decide (x.title = t)) = hist.filter (fun x => decide (x.title = t)) := by
    intro t
    rw [filter_foldl_insertTree hist Tree.nil t trivial]
    simp [inOrder]
  obtain ⟨_, hs2, hs3⟩ := stableSortByTitle_spec hist
  refine ⟨eq_of_sorted_of_filter _ _ hsorted hs2 (fun t => ?_), hsorted, hfilter⟩
  rw [hfilter t, hs3 t]

/-- C21, on six insertions with the titles "M" three times and "B" twice: the traversal lists
the books of each title in the order of their insertion. -/
theorem inOrder_stable_witness :
    (inOrder (twins.foldl insertTree Tree.nil)).map (fun b => (b.title, b.author))
      = [("B", "first"), ("B", "second"), ("M", "first"), ("M", "second"), ("M", "third"),
         ("Z", "only")] ∧
    (inOrder (twins.foldl insertTree Tree.nil) = stableSortByTitle twins ∧
      (inOrder (twins.foldl insertTree Tree.nil)).Pairwise
        (fun a b => a.title.data ≤ b.title.data) ∧
      ∀ t : String, (inOrder (twins.foldl insertTree Tree.nil)).filter
          (fun x => decide (x.title = t)) = twins.filter (fun x => decide (x.title = t))) :=
  ⟨by decide, inOrder_stable twins⟩

end LibrarySystem
